import Mathlib

/-!
Verification of the directed-graph engine of the monorepo-dependency-graph
tool (src/main.ts).  The JavaScript `Map<T, Set<T>>` is modelled as an
insertion-ordered association list (JS maps and sets iterate in insertion
order, which is load-bearing for the topological sort's tie-breaking), and
machine numbers are modelled as `Int`.  The three while-loops of the source
(`walk`, the inner loop of `isCyclic`, and the Kahn loop of `topoSort`) are
modelled with explicit fuel.
-/

set_option maxHeartbeats 1000000

namespace MonoDepGraph

variable {T : Type} [DecidableEq T] {α : Type}

/-- First-match lookup in an association list (JS `Map.get`). -/
def lookupKey [DecidableEq T] : List (T × α) → T → Option α
  | [], _ => none
  | (k, v) :: rest, x => if x = k then some v else lookupKey rest x

/-- JS `Map.has`. -/
def containsKey [DecidableEq T] (m : List (T × α)) (x : T) : Bool :=
  (lookupKey m x).isSome

/-- JS `Map.set`: update the first occurrence in place, else append. -/
def setKey [DecidableEq T] : List (T × α) → T → α → List (T × α)
  | [], x, v => [(x, v)]
  | (k, w) :: rest, x, v => if x = k then (k, v) :: rest else (k, w) :: setKey rest x v

/-- Modify the value stored at a key (first occurrence), used to model
in-place mutation of the `Set` stored in the map by `addAll`. -/
def updateKey [DecidableEq T] : List (T × α) → T → (α → α) → List (T × α)
  | [], _, _ => []
  | (k, w) :: rest, x, f => if x = k then (k, f w) :: rest else (k, w) :: updateKey rest x f

/-- JS `Set.add`: append if not already present. -/
def setAdd [DecidableEq T] (s : List T) (x : T) : List T :=
  if x ∈ s then s else s ++ [x]

/-- `Sets.addAll` from the source: add all elements in order. -/
def addAllSet [DecidableEq T] (s : List T) (xs : List T) : List T :=
  xs.foldl setAdd s

/-- Index of the first occurrence of an element in a list (length if absent). -/
def idxOf [DecidableEq T] : List T → T → Nat
  | [], _ => 0
  | a :: rest, x => if x = a then 0 else (idxOf rest x) + 1

/-- A directed graph: the `edges : Map<T, Set<T>>` field of class
`DirectedGraph`, as an insertion-ordered association list. -/
abbrev DirectedGraph (T : Type) := List (T × List T)

/-- The node set: the keys of the mapping, in insertion order. -/
def keys (g : DirectedGraph T) : List T := g.map Prod.fst

/-- The edge set stored for a node; empty when the node is not a key.
(`topoSort` reads it as `this.edges.get(node) || new Set()` and `isCyclic`
guards with `nextNodeChildren && ...`, both of which default to empty;
`walk` dereferences unchecked, which only diverges on graphs violating the
node-closure invariant, and the claims about `walk` assume built graphs.) -/
def depsOf [DecidableEq T] (g : DirectedGraph T) (x : T) : List T :=
  (lookupKey g x).getD []

/-- The edge relation of the graph: `a → b` when `b` is in `a`'s edge set. -/
def EdgeRel [DecidableEq T] (g : DirectedGraph T) (a b : T) : Prop :=
  b ∈ depsOf g a

instance (g : DirectedGraph T) (a b : T) : Decidable (EdgeRel g a b) := by
  unfold EdgeRel; infer_instance

/-- `DirectedGraph.ensureAll`: make every listed node a key. -/
def ensureAll [DecidableEq T] (g : DirectedGraph T) (nodes : List T) : DirectedGraph T :=
  nodes.foldl (fun g n => if containsKey g n then g else g ++ [(n, [])]) g

/-- `DirectedGraph.addAll(from, ...to)`: ensure the source is a key, add all
destinations to its edge set, then ensure every destination is a key. -/
def addAll [DecidableEq T] (g : DirectedGraph T) (source : T) (dests : List T) :
    DirectedGraph T :=
  let g1 := if containsKey g source then g else g ++ [(source, [])]
  let g2 := updateKey g1 source (fun deps => addAllSet deps dests)
  ensureAll g2 dests

/-- Graphs reachable from the empty graph by `addAll` calls. -/
inductive Built [DecidableEq T] : DirectedGraph T → Prop
  | empty : Built []
  | step (g : DirectedGraph T) (source : T) (dests : List T) :
      Built g → Built (addAll g source dests)

/-- One iteration of the loop of `DirectedGraph.invert`: `addAll(edge)` to
keep the node, then `addAll(dep, edge)` for each of its dependencies. -/
def invertStep [DecidableEq T] (inv : DirectedGraph T) (e : T × List T) : DirectedGraph T :=
  e.2.foldl (fun inv dep => addAll inv dep [e.1]) (addAll inv e.1 [])

/-- `DirectedGraph.invert`: every edge `A → B` becomes `B → A`, keeping
every node. -/
def invert [DecidableEq T] (g : DirectedGraph T) : DirectedGraph T :=
  g.foldl invertStep []

/-- The while-loop of `DirectedGraph.walk`, with fuel: dequeue from the
front, enqueue the not-yet-seen dependencies, mark the dequeued node seen. -/
def walkAux [DecidableEq T] (g : DirectedGraph T) :
    Nat → List T → List T → Option (List T)
  | _, [], seen => some seen
  | 0, _ :: _, _ => none
  | fuel + 1, next :: rest, seen =>
      walkAux g fuel (rest ++ (depsOf g next).filter (fun d => d ∉ seen))
        (setAdd seen next)

/-- `DirectedGraph.walk(start)`: breadth-first reachability from `start`. -/
def walk [DecidableEq T] (g : DirectedGraph T) (start : T) (fuel : Nat) :
    Option (List T) :=
  walkAux g fuel [start] []

/-- The inner while-loop of `DirectedGraph.isCyclic`: returns `(true, seen)`
on a revisit, `(false, seen)` when the work list empties. -/
def cyclicWalkAux [DecidableEq T] (g : DirectedGraph T) :
    Nat → List T → List T → Option (Bool × List T)
  | _, [], seen => some (false, seen)
  | 0, _ :: _, _ => none
  | fuel + 1, next :: rest, seen =>
      if next ∈ seen then some (true, seen)
      else cyclicWalkAux g fuel (rest ++ depsOf g next) (setAdd seen next)

/-- The outer loop of `DirectedGraph.isCyclic` over the graph's keys,
skipping nodes already seen on a completed walk. -/
def isCyclicAux [DecidableEq T] (g : DirectedGraph T) (fuel : Nat) :
    List T → List T → Option Bool
  | [], _ => some false
  | node :: rest, seenAll =>
      if node ∈ seenAll then isCyclicAux g fuel rest seenAll
      else
        match cyclicWalkAux g fuel (depsOf g node) [] with
        | none => none
        | some (true, _) => some true
        | some (false, seenWalk) => isCyclicAux g fuel rest (addAllSet seenAll seenWalk)

/-- `DirectedGraph.isCyclic()`. -/
def isCyclic [DecidableEq T] (g : DirectedGraph T) (fuel : Nat) : Option Bool :=
  isCyclicAux g fuel (keys g) []

/-- One in-degree increment of `indegrees`:
`inDegrees.set(neighbour, (inDegrees.get(neighbour) || 0) + 1)`. -/
def bumpDeg [DecidableEq T] (m : List (T × Int)) (nb : T) : List (T × Int) :=
  setKey m nb ((lookupKey m nb).getD 0 + 1)

/-- One iteration of the loop of `indegrees`: default the node's own entry
to 0 if absent, then bump each of its neighbours. -/
def indegreesStep [DecidableEq T] (m : List (T × Int)) (e : T × List T) :
    List (T × Int) :=
  e.2.foldl bumpDeg (if containsKey m e.1 then m else m ++ [(e.1, 0)])

/-- `DirectedGraph.indegrees()`: for every key an entry (defaulting to 0),
plus one increment per edge pointing at a node. -/
def indegrees [DecidableEq T] (g : DirectedGraph T) : List (T × Int) :=
  g.foldl indegreesStep []

/-- Number of entries of the in-degree map holding a positive count
(used as the fuel budget of the Kahn loop). -/
def countPos (m : List (T × Int)) : Nat :=
  (m.filter (fun p => 0 < p.2)).length

/-- One neighbour visit of the Kahn loop: decrement the neighbour's
in-degree and push it when the decremented count is exactly 0.
(`inDegrees.get(neighbour)!` is modelled with a default of 0; on graphs
built by `addAll` every neighbour is a key of the in-degree map, so the
default is never consulted.) -/
def kahnVisit [DecidableEq T] (inDeg : List (T × Int)) (pushed : List T) (nb : T) :
    List (T × Int) × List T :=
  let c := (lookupKey inDeg nb).getD 0 - 1
  (setKey inDeg nb c, if c = 0 then pushed ++ [nb] else pushed)

/-- Process all neighbours of an emitted node. -/
def kahnProcess [DecidableEq T] (g : DirectedGraph T) (node : T)
    (inDeg : List (T × Int)) : List (T × Int) × List T :=
  (depsOf g node).foldl (fun acc nb => kahnVisit acc.1 acc.2 nb) (inDeg, [])

/-- The while-loop of `topoSort` (Kahn's algorithm): pop a source from the
END of the work list (LIFO), emit it, decrement the in-degree of each of its
dependencies and push those that reach exactly 0.  Fuel-indexed; the fuel
chosen by `topoSort` is provably sufficient. -/
def kahnLoop [DecidableEq T] (g : DirectedGraph T) :
    Nat → List T → List (T × Int) → List T → List T
  | 0, _, _, order => order
  | fuel + 1, sources, inDeg, order =>
      match sources.getLast? with
      | none => order
      | some node =>
          let step := kahnProcess g node inDeg
          kahnLoop g fuel (sources.dropLast ++ step.2) step.1 (order ++ [node])

/-- Result of `topoSort`: an ordering, or one of the two assertion
failures of the source (no zero-in-degree source / cycle detected). -/
inductive TopoResult (T : Type) where
  | ok : List T → TopoResult T
  | errNoSource : TopoResult T
  | errCycle : TopoResult T
  deriving DecidableEq

/-- The initial work list of `topoSort`: all nodes of in-degree 0, in
in-degree-map order. -/
def sourcesOf [DecidableEq T] (inDeg : List (T × Int)) : List T :=
  (inDeg.filter (fun p => p.2 = 0)).map Prod.fst

/-- `DirectedGraph.topoSort()`: collect the zero-in-degree sources in
in-degree-map order, assert there is at least one, run the Kahn loop, and
assert every node was emitted. -/
def topoSort [DecidableEq T] (g : DirectedGraph T) : TopoResult T :=
  if (sourcesOf (indegrees g)).isEmpty then TopoResult.errNoSource
  else
    let ordering := kahnLoop g
      ((sourcesOf (indegrees g)).length + countPos (indegrees g) + 1)
      (sourcesOf (indegrees g)) (indegrees g) []
    if ordering.length = g.length then TopoResult.ok ordering else TopoResult.errCycle

/-- `DirectedGraph.subgraph(keep)`: keep only kept nodes and the edges
between them. -/
def subgraph [DecidableEq T] (g : DirectedGraph T) (keep : List T) : DirectedGraph T :=
  g.foldl
    (fun sg e => if e.1 ∈ keep then addAll sg e.1 (e.2.filter (fun d => d ∈ keep)) else sg)
    []

/-! ### Basic association-list and set lemmas -/

theorem lookupKey_append (m1 m2 : List (T × α)) (x : T) :
    lookupKey (m1 ++ m2) x =
      match lookupKey m1 x with
      | some v => some v
      | none => lookupKey m2 x := by
  induction m1 with
  | nil => simp [lookupKey]
  | cons e rest ih =>
    obtain ⟨k, v⟩ := e
    by_cases h : x = k <;> simp [lookupKey, h, ih]

theorem lookupKey_setKey (m : List (T × α)) (k : T) (v : α) (x : T) :
    lookupKey (setKey m k v) x = if x = k then some v else lookupKey m x := by
  induction m with
  | nil => simp only [setKey, lookupKey]
  | cons e rest ih =>
    obtain ⟨k', w⟩ := e
    simp only [setKey]
    by_cases h1 : k = k'
    · subst h1
      by_cases h2 : x = k <;> simp [lookupKey, h2]
    · simp only [if_neg h1, lookupKey, ih]
      by_cases h2 : x = k'
      · subst h2
        have hxk : ¬ x = k := fun hh => h1 hh.symm
        simp [hxk]
      · simp [h2]

theorem lookupKey_updateKey (m : List (T × α)) (k : T) (f : α → α) (x : T) :
    lookupKey (updateKey m k f) x =
      if x = k then (lookupKey m k).map f else lookupKey m x := by
  induction m with
  | nil => by_cases h : x = k <;> simp [updateKey, lookupKey, h]
  | cons e rest ih =>
    obtain ⟨k', w⟩ := e
    simp only [updateKey]
    by_cases h1 : k = k'
    · subst h1
      by_cases h2 : x = k <;> simp [lookupKey, h2]
    · simp only [if_neg h1, lookupKey, ih]
      by_cases h2 : x = k'
      · subst h2
        have hxk : ¬ x = k := fun hh => h1 hh.symm
        simp [hxk, lookupKey, h1]
      · simp [h2]

/-- The keys of an association list, in order. -/
def keysM (m : List (T × α)) : List T := m.map Prod.fst

theorem keysM_cons (e : T × α) (rest : List (T × α)) :
    keysM (e :: rest) = e.1 :: keysM rest := rfl

theorem keysM_append (m1 m2 : List (T × α)) :
    keysM (m1 ++ m2) = keysM m1 ++ keysM m2 := by
  simp [keysM]

theorem containsKey_iff_mem_keysM (m : List (T × α)) (x : T) :
    containsKey m x = true ↔ x ∈ keysM m := by
  induction m with
  | nil => simp [containsKey, lookupKey, keysM]
  | cons e rest ih =>
    obtain ⟨k, v⟩ := e
    by_cases h : x = k
    · simp [containsKey, lookupKey, keysM, h]
    · simpa [containsKey, lookupKey, keysM, h] using ih

theorem lookupKey_eq_none (m : List (T × α)) (x : T) :
    lookupKey m x = none ↔ x ∉ keysM m := by
  constructor
  · intro h hx
    rw [← containsKey_iff_mem_keysM] at hx
    simp [containsKey, h] at hx
  · intro h
    cases hl : lookupKey m x with
    | none => rfl
    | some v =>
      exfalso; apply h
      rw [← containsKey_iff_mem_keysM]
      simp [containsKey, hl]

theorem keysM_setKey (m : List (T × α)) (k : T) (v : α) :
    keysM (setKey m k v) = if containsKey m k then keysM m else keysM m ++ [k] := by
  induction m with
  | nil => simp [setKey, keysM, containsKey, lookupKey]
  | cons e rest ih =>
    obtain ⟨k', w⟩ := e
    simp only [setKey]
    by_cases h : k = k'
    · subst h
      simp [keysM, containsKey, lookupKey]
    · have hck : containsKey ((k', w) :: rest) k = containsKey rest k := by
        simp [containsKey, lookupKey, fun hh => h hh]
      rw [if_neg h, keysM_cons, keysM_cons, ih, hck]
      by_cases hc : containsKey rest k <;> simp [hc]

theorem keysM_updateKey (m : List (T × α)) (k : T) (f : α → α) :
    keysM (updateKey m k f) = keysM m := by
  induction m with
  | nil => simp [updateKey]
  | cons e rest ih =>
    obtain ⟨k', w⟩ := e
    simp only [updateKey]
    by_cases h : k = k'
    · subst h; simp [keysM]
    · rw [if_neg h, keysM_cons, keysM_cons, ih]

theorem lookupKey_of_mem_nodup (m : List (T × α)) (k : T) (v : α) :
    (keysM m).Nodup → (k, v) ∈ m → lookupKey m k = some v := by
  induction m with
  | nil => intro _ h; simp at h
  | cons e rest ih =>
    intro hnd hmem
    obtain ⟨k', w⟩ := e
    rw [keysM_cons, List.nodup_cons] at hnd
    rcases List.mem_cons.1 hmem with hm1 | hm2
    · cases hm1; simp [lookupKey]
    · have hk : ¬ k = k' := by
        intro h
        apply hnd.1
        rw [← h]
        simpa [keysM] using List.mem_map_of_mem Prod.fst hm2
      simp only [lookupKey, if_neg hk]
      exact ih hnd.2 hm2

theorem mem_of_lookupKey (m : List (T × α)) (k : T) (v : α)
    (h : lookupKey m k = some v) : (k, v) ∈ m := by
  induction m with
  | nil => simp [lookupKey] at h
  | cons e rest ih =>
    obtain ⟨k', w⟩ := e
    by_cases hk : k = k'
    · subst hk; simp [lookupKey] at h; simp [h]
    · simp [lookupKey, hk] at h
      exact List.mem_cons_of_mem _ (ih h)

theorem mem_setAdd (s : List T) (x y : T) :
    y ∈ setAdd s x ↔ y ∈ s ∨ y = x := by
  unfold setAdd
  by_cases h : x ∈ s
  · simp [h]
    intro hyx; subst hyx; simp [h]
  · simp [h]

theorem nodup_setAdd (s : List T) (x : T) (h : s.Nodup) : (setAdd s x).Nodup := by
  unfold setAdd
  by_cases hx : x ∈ s
  · simpa [hx]
  · rw [if_neg hx]
    refine List.Nodup.append h (List.nodup_singleton x) ?_
    intro a ha hax
    simp at hax
    subst hax
    exact hx ha

theorem mem_addAllSet (s xs : List T) (y : T) :
    y ∈ addAllSet s xs ↔ y ∈ s ∨ y ∈ xs := by
  induction xs generalizing s with
  | nil => simp [addAllSet]
  | cons a rest ih =>
    simp only [addAllSet, List.foldl_cons] at ih ⊢
    rw [ih (setAdd s a), mem_setAdd]
    simp
    tauto

theorem nodup_addAllSet (s xs : List T) (h : s.Nodup) : (addAllSet s xs).Nodup := by
  induction xs generalizing s with
  | nil => simpa [addAllSet]
  | cons a rest ih =>
    simp only [addAllSet, List.foldl_cons] at ih ⊢
    exact ih _ (nodup_setAdd s a h)

/-! ### Characterization of `addAll` and well-formedness of built graphs -/

theorem depsOf_eq_of_not_containsKey (g : DirectedGraph T) (x : T)
    (h : containsKey g x = false) : depsOf g x = [] := by
  unfold depsOf
  cases hl : lookupKey g x with
  | none => rfl
  | some v => simp [containsKey, hl] at h

theorem containsKey_append_single (m : List (T × α)) (d : T) (v : α) (y : T) :
    containsKey (m ++ [(d, v)]) y = true ↔ containsKey m y = true ∨ y = d := by
  simp only [containsKey, lookupKey_append]
  cases hl : lookupKey m y with
  | some w => simp
  | none => by_cases hy : y = d <;> simp [lookupKey, hy]

theorem containsKey_ensureAll (g : DirectedGraph T) (ds : List T) (x : T) :
    containsKey (ensureAll g ds) x = true ↔ containsKey g x = true ∨ x ∈ ds := by
  induction ds generalizing g with
  | nil => simp [ensureAll]
  | cons d rest ih =>
    simp only [ensureAll, List.foldl_cons] at ih ⊢
    by_cases h : containsKey g d
    · rw [if_pos h, ih]
      simp only [List.mem_cons]
      constructor
      · rintro (hc | hr)
        · exact Or.inl hc
        · exact Or.inr (Or.inr hr)
      · rintro (hc | hx | hr)
        · exact Or.inl hc
        · subst hx; exact Or.inl h
        · exact Or.inr hr
    · rw [if_neg (by simp [h]), ih, containsKey_append_single]
      simp only [List.mem_cons]
      tauto

theorem depsOf_append_single (g : DirectedGraph T) (d x : T) :
    depsOf (g ++ [(d, [])]) x = depsOf g x := by
  unfold depsOf
  rw [lookupKey_append]
  cases hl : lookupKey g x with
  | some v => simp
  | none =>
    by_cases hx : x = d
    · subst hx; simp [lookupKey]
    · simp [lookupKey, hx]

theorem depsOf_ensureAll (g : DirectedGraph T) (ds : List T) (x : T) :
    depsOf (ensureAll g ds) x = depsOf g x := by
  induction ds generalizing g with
  | nil => simp [ensureAll]
  | cons d rest ih =>
    simp only [ensureAll, List.foldl_cons] at ih ⊢
    by_cases h : containsKey g d
    · rw [if_pos h]; exact ih g
    · rw [if_neg (by simp [h]), ih, depsOf_append_single]

theorem nodup_keysM_append_single (m : List (T × α)) (d : T) (v : α)
    (h : (keysM m).Nodup) (hd : ¬ containsKey m d = true) :
    (keysM (m ++ [(d, v)])).Nodup := by
  rw [keysM_append]
  have hdm : d ∉ keysM m := fun hm => hd ((containsKey_iff_mem_keysM m d).2 hm)
  refine List.Nodup.append h (by simp [keysM]) ?_
  intro a ha hax
  simp [keysM] at hax
  subst hax
  exact hdm ha

theorem keysM_ensureAll_nodup (g : DirectedGraph T) (ds : List T)
    (h : (keysM g).Nodup) : (keysM (ensureAll g ds)).Nodup := by
  induction ds generalizing g with
  | nil => simpa [ensureAll]
  | cons d rest ih =>
    simp only [ensureAll, List.foldl_cons]
    by_cases hc : containsKey g d
    · rw [if_pos hc]; exact ih g h
    · rw [if_neg (by simp [hc])]
      exact ih _ (nodup_keysM_append_single g d [] h (by simp [hc]))

theorem depsOf_addAll (g : DirectedGraph T) (s : T) (ds : List T) (x : T) :
    depsOf (addAll g s ds) x =
      if x = s then addAllSet (depsOf g s) ds else depsOf g x := by
  unfold addAll
  rw [depsOf_ensureAll]
  by_cases hc : containsKey g s
  · rw [if_pos hc]
    unfold depsOf
    rw [lookupKey_updateKey]
    by_cases hx : x = s
    · subst hx
      rw [if_pos rfl, if_pos rfl]
      cases hl : lookupKey g x with
      | none => simp [containsKey, hl] at hc
      | some v => simp [hl]
    · rw [if_neg hx, if_neg hx]
  · rw [if_neg (by simp [hc] : ¬ (containsKey g s = true))]
    unfold depsOf
    rw [lookupKey_updateKey]
    by_cases hx : x = s
    · subst hx
      rw [if_pos rfl, if_pos rfl, lookupKey_append]
      cases hl : lookupKey g x with
      | none => simp [lookupKey, hl]
      | some v => simp [containsKey, hl] at hc
    · rw [if_neg hx, if_neg hx, lookupKey_append]
      cases hl : lookupKey g x with
      | none => simp [lookupKey, hl, hx]
      | some v => simp [hl]

theorem containsKey_updateKey (m : List (T × α)) (k : T) (f : α → α) (y : T) :
    containsKey (updateKey m k f) y = containsKey m y := by
  simp only [containsKey, lookupKey_updateKey]
  by_cases hy : y = k
  · subst hy
    rw [if_pos rfl]
    cases lookupKey m y <;> simp
  · rw [if_neg hy]

theorem containsKey_addAll (g : DirectedGraph T) (s : T) (ds : List T) (x : T) :
    containsKey (addAll g s ds) x = true ↔
      containsKey g x = true ∨ x = s ∨ x ∈ ds := by
  unfold addAll
  rw [containsKey_ensureAll, containsKey_updateKey]
  by_cases hc : containsKey g s
  · rw [if_pos hc]
    constructor
    · rintro (h | h)
      · exact Or.inl h
      · exact Or.inr (Or.inr h)
    · rintro (h | h | h)
      · exact Or.inl h
      · subst h; exact Or.inl hc
      · exact Or.inr h
  · rw [if_neg (by simp [hc] : ¬ (containsKey g s = true)), containsKey_append_single]
    tauto

theorem keysM_addAll_nodup (g : DirectedGraph T) (s : T) (ds : List T)
    (h : (keysM g).Nodup) : (keysM (addAll g s ds)).Nodup := by
  unfold addAll
  apply keysM_ensureAll_nodup
  rw [keysM_updateKey]
  by_cases hc : containsKey g s
  · simpa [hc]
  · simp only [if_neg (by simp [hc] : ¬ (containsKey g s = true))]
    exact nodup_keysM_append_single g s [] h (by simp [hc])

/-- Well-formedness invariants maintained by every `addAll` sequence:
unique keys, node closure (every destination is a key), deduplicated edge
sets. -/
structure WF [DecidableEq T] (g : DirectedGraph T) : Prop where
  nodupKeys : (keysM g).Nodup
  closure : ∀ x y, y ∈ depsOf g x → containsKey g y = true
  nodupDeps : ∀ x, (depsOf g x).Nodup

theorem wf_empty : WF ([] : DirectedGraph T) := by
  refine ⟨by simp [keysM], ?_, ?_⟩ <;> intro x <;> simp [depsOf, lookupKey]

theorem wf_addAll (g : DirectedGraph T) (s : T) (ds : List T) (h : WF g) :
    WF (addAll g s ds) := by
  refine ⟨keysM_addAll_nodup g s ds h.nodupKeys, ?_, ?_⟩
  · intro x y hy
    rw [depsOf_addAll] at hy
    rw [containsKey_addAll]
    by_cases hx : x = s
    · simp [hx] at hy
      rw [mem_addAllSet] at hy
      rcases hy with hy | hy
      · exact Or.inl (h.closure s y hy)
      · exact Or.inr (Or.inr hy)
    · simp [hx] at hy
      exact Or.inl (h.closure x y hy)
  · intro x
    rw [depsOf_addAll]
    by_cases hx : x = s
    · simp [hx]
      exact nodup_addAllSet _ _ (h.nodupDeps s)
    · simp [hx]
      exact h.nodupDeps x

theorem wf_of_built (g : DirectedGraph T) (h : Built g) : WF g := by
  induction h with
  | empty => exact wf_empty
  | step g s ds _ ih => exact wf_addAll g s ds ih

/-- `Mode.TOPO = 1 << 1`. -/
def modeTOPO : Nat := 1 <<< 1

/-- `Mode.VIZ = 1 << 2`. -/
def modeVIZ : Nat := 1 <<< 2

/-- `Mode.ALL = TOPO & VIZ` (the source uses bitwise AND here). -/
def modeALL : Nat := modeTOPO &&& modeVIZ

/-- The mode selected by `parseCliArgs` from the optional mode argument;
`none`/`some` of an invalid word models the thrown error. -/
def parseCliMode : Option String → Option Nat
  | some "topo" => some modeTOPO
  | some "viz" => some modeVIZ
  | none => some modeALL
  | some _ => none

/-- `main` prints the topological ordering when `mode & Mode.TOPO` is
truthy (non-zero). -/
def printsTopo (mode : Nat) : Bool := mode &&& modeTOPO ≠ 0

/-- `main` prints the graph rendering when `mode & Mode.VIZ` is truthy. -/
def printsViz (mode : Nat) : Bool := mode &&& modeVIZ ≠ 0

/-! ### Characterization of `invert` -/

theorem edgeRel_addAll (g : DirectedGraph T) (s : T) (ds : List T) (x y : T) :
    EdgeRel (addAll g s ds) x y ↔ EdgeRel g x y ∨ (x = s ∧ y ∈ ds) := by
  unfold EdgeRel
  rw [depsOf_addAll]
  by_cases hx : x = s
  · subst hx
    rw [if_pos rfl, mem_addAllSet]
    tauto
  · rw [if_neg hx]
    tauto

theorem built_addAll_chain (g : DirectedGraph T) (h : Built g) (s : T) (ds : List T) :
    Built (addAll g s ds) := Built.step g s ds h

theorem built_invertStep (acc : DirectedGraph T) (e : T × List T) (h : Built acc) :
    Built (invertStep acc e) := by
  unfold invertStep
  have : ∀ (ds : List T) (a : DirectedGraph T), Built a →
      Built (ds.foldl (fun inv dep => addAll inv dep [e.1]) a) := by
    intro ds
    induction ds with
    | nil => intro a ha; exact ha
    | cons d rest ih =>
      intro a ha
      exact ih _ (Built.step a d [e.1] ha)
  exact this e.2 _ (Built.step acc e.1 [] h)

theorem built_invert (g : DirectedGraph T) : Built (invert g) := by
  unfold invert
  have : ∀ (l : List (T × List T)) (a : DirectedGraph T), Built a →
      Built (l.foldl invertStep a) := by
    intro l
    induction l with
    | nil => intro a ha; exact ha
    | cons e rest ih => intro a ha; exact ih _ (built_invertStep a e ha)
  exact this g [] Built.empty

theorem edgeRel_invertStep (acc : DirectedGraph T) (e : T × List T) (x y : T) :
    EdgeRel (invertStep acc e) x y ↔ EdgeRel acc x y ∨ (x ∈ e.2 ∧ y = e.1) := by
  unfold invertStep
  have inner : ∀ (ds : List T) (a : DirectedGraph T),
      EdgeRel (ds.foldl (fun inv dep => addAll inv dep [e.1]) a) x y ↔
        EdgeRel a x y ∨ (x ∈ ds ∧ y = e.1) := by
    intro ds
    induction ds with
    | nil => intro a; simp
    | cons d rest ih =>
      intro a
      simp only [List.foldl_cons]
      rw [ih, edgeRel_addAll]
      simp only [List.mem_cons, List.mem_singleton]
      tauto
  rw [inner, edgeRel_addAll]
  simp

theorem containsKey_invertStep (acc : DirectedGraph T) (e : T × List T) (x : T) :
    containsKey (invertStep acc e) x = true ↔
      containsKey acc x = true ∨ x = e.1 ∨ x ∈ e.2 := by
  unfold invertStep
  have inner : ∀ (ds : List T) (a : DirectedGraph T),
      containsKey a e.1 = true →
      (containsKey (ds.foldl (fun inv dep => addAll inv dep [e.1]) a) x = true ↔
        containsKey a x = true ∨ x ∈ ds) := by
    intro ds
    induction ds with
    | nil => intro a _; simp
    | cons d rest ih =>
      intro a ha
      simp only [List.foldl_cons]
      rw [ih _ ((containsKey_addAll a d [e.1] e.1).2 (Or.inl ha)),
        containsKey_addAll]
      simp only [List.mem_cons, List.not_mem_nil, or_false]
      constructor
      · rintro ((h | h | h) | h)
        · exact Or.inl h
        · exact Or.inr (Or.inl h)
        · subst h; exact Or.inl ha
        · exact Or.inr (Or.inr h)
      · rintro (h | h | h)
        · exact Or.inl (Or.inl h)
        · exact Or.inl (Or.inr (Or.inl h))
        · exact Or.inr h
  rw [inner e.2 _ ((containsKey_addAll acc e.1 [] e.1).2 (Or.inr (Or.inl rfl))),
    containsKey_addAll]
  simp only [List.not_mem_nil, or_false]
  tauto

theorem edgeRel_invertFold (l : List (T × List T)) (acc : DirectedGraph T) (x y : T) :
    EdgeRel (l.foldl invertStep acc) x y ↔
      EdgeRel acc x y ∨ ∃ e ∈ l, y = e.1 ∧ x ∈ e.2 := by
  induction l generalizing acc with
  | nil => simp
  | cons e rest ih =>
    simp only [List.foldl_cons]
    rw [ih, edgeRel_invertStep]
    simp only [List.mem_cons]
    constructor
    · rintro ((h | ⟨h1, h2⟩) | ⟨f, hf, h1, h2⟩)
      · exact Or.inl h
      · exact Or.inr ⟨e, Or.inl rfl, h2, h1⟩
      · exact Or.inr ⟨f, Or.inr hf, h1, h2⟩
    · rintro (h | ⟨f, hf | hf, h1, h2⟩)
      · exact Or.inl (Or.inl h)
      · subst hf; exact Or.inl (Or.inr ⟨h2, h1⟩)
      · exact Or.inr ⟨f, hf, h1, h2⟩

theorem containsKey_invertFold (l : List (T × List T)) (acc : DirectedGraph T) (x : T) :
    containsKey (l.foldl invertStep acc) x = true ↔
      containsKey acc x = true ∨ ∃ e ∈ l, x = e.1 ∨ x ∈ e.2 := by
  induction l generalizing acc with
  | nil => simp
  | cons e rest ih =>
    simp only [List.foldl_cons]
    rw [ih, containsKey_invertStep]
    simp only [List.mem_cons]
    constructor
    · rintro ((h | h | h) | ⟨f, hf, h⟩)
      · exact Or.inl h
      · exact Or.inr ⟨e, Or.inl rfl, Or.inl h⟩
      · exact Or.inr ⟨e, Or.inl rfl, Or.inr h⟩
      · exact Or.inr ⟨f, Or.inr hf, h⟩
    · rintro (h | ⟨f, hf | hf, h⟩)
      · exact Or.inl (Or.inl h)
      · subst hf; exact Or.inl (Or.inr h)
      · exact Or.inr ⟨f, hf, h⟩

theorem edgeRel_entry_iff (g : DirectedGraph T) (hnd : (keysM g).Nodup) (a b : T) :
    (∃ e ∈ g, a = e.1 ∧ b ∈ e.2) ↔ EdgeRel g a b := by
  constructor
  · rintro ⟨e, he, h1, h2⟩
    subst h1
    have hmem : (e.1, e.2) ∈ g := by simpa using he
    have hl := lookupKey_of_mem_nodup g e.1 e.2 hnd hmem
    unfold EdgeRel depsOf
    rw [hl]
    exact h2
  · intro h
    unfold EdgeRel depsOf at h
    cases hl : lookupKey g a with
    | none => rw [hl] at h; simp at h
    | some v =>
      rw [hl] at h
      exact ⟨(a, v), mem_of_lookupKey g a v hl, rfl, by simpa using h⟩

theorem edgeRel_invert (g : DirectedGraph T) (h : Built g) (a b : T) :
    EdgeRel (invert g) b a ↔ EdgeRel g a b := by
  unfold invert
  rw [edgeRel_invertFold]
  have hwf := wf_of_built g h
  constructor
  · rintro (h1 | ⟨e, he, h1, h2⟩)
    · simp [EdgeRel, depsOf, lookupKey] at h1
    · exact (edgeRel_entry_iff g hwf.nodupKeys a b).1 ⟨e, he, h1, h2⟩
  · intro h1
    rcases (edgeRel_entry_iff g hwf.nodupKeys a b).2 h1 with ⟨e, he, h2, h3⟩
    exact Or.inr ⟨e, he, h2, h3⟩

theorem mem_keys_invert (g : DirectedGraph T) (h : Built g) (x : T) :
    x ∈ keys (invert g) ↔ x ∈ keys g := by
  have hwf := wf_of_built g h
  show x ∈ keysM (invert g) ↔ x ∈ keysM g
  rw [← containsKey_iff_mem_keysM, ← containsKey_iff_mem_keysM]
  unfold invert
  rw [containsKey_invertFold]
  constructor
  · rintro (h1 | ⟨e, he, h1 | h1⟩)
    · simp [containsKey, lookupKey] at h1
    · subst h1
      rw [containsKey_iff_mem_keysM]
      exact List.mem_map_of_mem Prod.fst he
    · have hmem : (e.1, e.2) ∈ g := by simpa using he
      have hl := lookupKey_of_mem_nodup g e.1 e.2 hwf.nodupKeys hmem
      apply hwf.closure e.1
      unfold depsOf
      rw [hl]
      exact h1
  · intro h1
    rw [containsKey_iff_mem_keysM, keysM] at h1
    rcases List.mem_map.1 h1 with ⟨e, he, h2⟩
    exact Or.inr ⟨e, he, Or.inl h2.symm⟩

/-! ### Claim C3 (mode selection), C9 (empty graph), C4 (worked example), C5 (node closure) -/

/-- Claim C3 (code bug): the source computes `Mode.ALL = TOPO & VIZ`,
which is `0`; with no mode argument the selected mode is `ALL`, and since
`0 & TOPO` and `0 & VIZ` are both falsy, NEITHER the topological ordering
nor the graph rendering is printed — contradicting the documented contract
that no mode argument enables both outputs. -/
theorem C3_default_mode_prints_nothing :
    parseCliMode none = some modeALL ∧ modeALL = 0 ∧
      printsTopo modeALL = false ∧ printsViz modeALL = false :=
  ⟨rfl, rfl, rfl, rfl⟩

/-- Claim C9: `topoSort` on the empty graph hits the unconditional
`sources.length > 0` assertion and aborts with the no-source error rather
than returning an empty ordering. -/
theorem C9_topoSort_empty_graph_errNoSource (T : Type) [DecidableEq T] :
    topoSort ([] : DirectedGraph T) = TopoResult.errNoSource := rfl

/-- The graph of the reference example, built in the order the edges are
listed in the claim: `one→two, one→three, two→four, three→four`. -/
def exampleGraph : DirectedGraph String :=
  addAll (addAll (addAll [] "one" ["two", "three"]) "two" ["four"]) "three" ["four"]

/-- Claim C4: on the reference example with entrypoint `four`, the pipeline
invert → walk(four) → subgraph → topoSort produces exactly the ordering
`[one, three, two, four]` (the LIFO work-list pops `three` before `two`). -/
theorem C4_example_pipeline_ordering :
    (walk (invert exampleGraph) "four" 10).map
        (fun s => topoSort (subgraph exampleGraph s)) =
      some (TopoResult.ok ["one", "three", "two", "four"]) := by decide

/-- Claim C5: after any sequence of `addAll` calls, every node appearing as
a destination in any edge set is a key of the graph's mapping. -/
theorem C5_node_closure (g : DirectedGraph T) (h : Built g) :
    ∀ e ∈ g, ∀ b ∈ e.2, b ∈ keys g := by
  have hwf := wf_of_built g h
  intro e he b hb
  have hmem : (e.1, e.2) ∈ g := by simpa using he
  have hl : lookupKey g e.1 = some e.2 :=
    lookupKey_of_mem_nodup g e.1 e.2 hwf.nodupKeys hmem
  have hd : b ∈ depsOf g e.1 := by
    unfold depsOf
    rw [hl]
    exact hb
  exact (containsKey_iff_mem_keysM g b).1 (hwf.closure e.1 b hd)

/-- Witness for C5 at the concrete graph `addAll [] "a" ["b"]`. -/
theorem C5_node_closure_witness :
    "b" ∈ keys (addAll ([] : DirectedGraph String) "a" ["b"]) :=
  C5_node_closure _ (Built.step [] "a" ["b"] Built.empty)
    ("a", ["b"]) (by decide) "b" (by decide)

/-- Claim C6: `invert (invert G)` has the same node set and edge relation
as `G`; `invert G` keeps every node of `G` (even edgeless ones) and holds
edge `B → A` exactly when `G` holds `A → B`. -/
theorem C6_invert_involutive (g : DirectedGraph T) (h : Built g) :
    (∀ x, x ∈ keys (invert (invert g)) ↔ x ∈ keys g) ∧
    (∀ a b, EdgeRel (invert (invert g)) a b ↔ EdgeRel g a b) ∧
    (∀ x, x ∈ keys g → x ∈ keys (invert g)) ∧
    (∀ a b, EdgeRel (invert g) b a ↔ EdgeRel g a b) := by
  have hbi := built_invert (T := T) g
  refine ⟨?_, ?_, ?_, ?_⟩
  · intro x
    rw [mem_keys_invert (invert g) hbi, mem_keys_invert g h]
  · intro a b
    rw [edgeRel_invert (invert g) hbi, edgeRel_invert g h]
  · intro x hx
    exact (mem_keys_invert g h x).2 hx
  · intro a b
    exact edgeRel_invert g h a b

/-- Witness for C6 at the concrete graph `addAll [] "a" ["b"]`. -/
theorem C6_invert_involutive_witness :
    EdgeRel (invert (addAll ([] : DirectedGraph String) "a" ["b"])) "b" "a" ↔
      EdgeRel (addAll ([] : DirectedGraph String) "a" ["b"]) "a" "b" :=
  (C6_invert_involutive _ (Built.step [] "a" ["b"] Built.empty)).2.2.2 "a" "b"

/-! ### Analysis of `walk`: partial correctness and termination -/

/-- All destinations appearing in any edge set of the graph. -/
def allDests (g : DirectedGraph T) : List T := (g.map Prod.snd).join

theorem depsOf_subset_allDests (g : DirectedGraph T) (x y : T)
    (h : y ∈ depsOf g x) : y ∈ allDests g := by
  unfold depsOf at h
  cases hl : lookupKey g x with
  | none => rw [hl] at h; simp at h
  | some v =>
    rw [hl] at h
    simp at h
    have hmem := mem_of_lookupKey g x v hl
    unfold allDests
    rw [List.mem_join]
    exact ⟨v, List.mem_map_of_mem Prod.snd hmem, h⟩

theorem filter_length_mono (l : List T) (p q : T → Bool)
    (h : ∀ x, q x = true → p x = true) :
    (l.filter q).length ≤ (l.filter p).length := by
  induction l with
  | nil => simp
  | cons a rest ih =>
    by_cases hq : q a = true
    · simp [List.filter_cons, hq, h a hq]
      omega
    · simp only [List.filter_cons]
      rw [if_neg (by simp [hq])]
      by_cases hp : p a = true
      · rw [if_pos (by simp [hp])]
        simp
        omega
      · rw [if_neg (by simp [hp])]
        exact ih

theorem filter_length_lt (l : List T) (p q : T → Bool)
    (h : ∀ x, q x = true → p x = true) (a : T) (ha : a ∈ l)
    (hpa : p a = true) (hqa : ¬ q a = true) :
    (l.filter q).length < (l.filter p).length := by
  induction l with
  | nil => simp at ha
  | cons b rest ih =>
    by_cases hq : q b = true
    · have hab : a ≠ b := fun hh => hqa (by rw [hh]; exact hq)
      have ha' : a ∈ rest := by
        rcases List.mem_cons.1 ha with hh | hh
        · exact absurd hh hab
        · exact hh
      have hrec := ih ha'
      simp [List.filter_cons, hq, h b hq]
      omega
    · by_cases hp : p b = true
      · have hmono := filter_length_mono rest p q h
        simp [List.filter_cons, hq, hp]
        omega
      · have ha' : a ∈ rest := by
          rcases List.mem_cons.1 ha with hh | hh
          · subst hh; exact absurd hpa hp
          · exact hh
        have hrec := ih ha'
        simp [List.filter_cons, hq, hp]
        omega

theorem takeWhile_append_bound (p : T → Bool) (l1 l2 : List T)
    (h : ∀ y ∈ l2, ¬ p y = true) :
    (List.takeWhile p (l1 ++ l2)).length ≤ (List.takeWhile p l1).length := by
  induction l1 with
  | nil =>
    cases l2 with
    | nil => simp
    | cons b rest =>
      have hb : p b = false := by
        have := h b (List.mem_cons_self b rest)
        simpa using this
      simp [List.takeWhile, hb]
  | cons a rest ih =>
    by_cases hp : p a = true
    · simp only [List.cons_append, List.takeWhile, hp, List.length_cons]
      exact Nat.add_le_add_right ih 1
    · have hp' : p a = false := by simpa using hp
      simp [List.takeWhile, hp']

theorem walkAux_sound (g : DirectedGraph T) (start : T) :
    ∀ (fuel : Nat) (tv seen out : List T),
      (∀ y ∈ tv, Relation.ReflTransGen (EdgeRel g) start y) →
      (∀ y ∈ seen, Relation.ReflTransGen (EdgeRel g) start y) →
      walkAux g fuel tv seen = some out →
      ∀ y ∈ out, Relation.ReflTransGen (EdgeRel g) start y := by
  intro fuel
  induction fuel with
  | zero =>
    intro tv seen out htv hseen heq
    cases tv with
    | nil =>
      simp [walkAux] at heq
      subst heq
      exact hseen
    | cons a rest => simp [walkAux] at heq
  | succ fuel ih =>
    intro tv seen out htv hseen heq
    cases tv with
    | nil =>
      simp [walkAux] at heq
      subst heq
      exact hseen
    | cons next rest =>
      simp only [walkAux] at heq
      refine ih _ _ out ?_ ?_ heq
      · intro y hy
        rcases List.mem_append.1 hy with hy | hy
        · exact htv y (List.mem_cons_of_mem _ hy)
        · have hf := List.mem_filter.1 hy
          exact Relation.ReflTransGen.tail (htv next (List.mem_cons_self _ _)) hf.1
      · intro y hy
        rw [mem_setAdd] at hy
        rcases hy with hy | hy
        · exact hseen y hy
        · rw [hy]
          exact htv next (List.mem_cons_self _ _)

theorem walkAux_closed (g : DirectedGraph T) (start : T) :
    ∀ (fuel : Nat) (tv seen out : List T),
      (start ∈ tv ∨ start ∈ seen) →
      (∀ x ∈ seen, ∀ d ∈ depsOf g x, d ∈ seen ∨ d ∈ tv) →
      walkAux g fuel tv seen = some out →
      start ∈ out ∧ ∀ x ∈ out, ∀ d ∈ depsOf g x, d ∈ out := by
  intro fuel
  induction fuel with
  | zero =>
    intro tv seen out hstart hcl heq
    cases tv with
    | nil =>
      simp [walkAux] at heq
      subst heq
      refine ⟨?_, ?_⟩
      · rcases hstart with h | h
        · simp at h
        · exact h
      · intro x hx d hd
        rcases hcl x hx d hd with h | h
        · exact h
        · simp at h
    | cons a rest => simp [walkAux] at heq
  | succ fuel ih =>
    intro tv seen out hstart hcl heq
    cases tv with
    | nil =>
      simp [walkAux] at heq
      subst heq
      refine ⟨?_, ?_⟩
      · rcases hstart with h | h
        · simp at h
        · exact h
      · intro x hx d hd
        rcases hcl x hx d hd with h | h
        · exact h
        · simp at h
    | cons next rest =>
      simp only [walkAux] at heq
      refine ih _ _ out ?_ ?_ heq
      · rcases hstart with h | h
        · rcases List.mem_cons.1 h with h | h
          · exact Or.inr ((mem_setAdd seen next start).2 (Or.inr h))
          · exact Or.inl (List.mem_append.2 (Or.inl h))
        · exact Or.inr ((mem_setAdd seen next start).2 (Or.inl h))
      · intro x hx d hd
        rcases (mem_setAdd seen next x).1 hx with hx | hx
        · rcases hcl x hx d hd with h | h
          · exact Or.inl ((mem_setAdd seen next d).2 (Or.inl h))
          · rcases List.mem_cons.1 h with h | h
            · exact Or.inl ((mem_setAdd seen next d).2 (Or.inr h))
            · exact Or.inr (List.mem_append.2 (Or.inl h))
        · rw [hx] at hd
          by_cases hds : d ∈ seen
          · exact Or.inl ((mem_setAdd seen next d).2 (Or.inl hds))
          · refine Or.inr (List.mem_append.2 (Or.inr ?_))
            exact List.mem_filter.2 ⟨hd, by simpa using hds⟩

theorem walkAux_term (g : DirectedGraph T) :
    ∀ (n : Nat) (tv seen : List T),
      (∀ y ∈ tv, y ∈ keys g ++ allDests g) →
      ((keys g ++ allDests g).filter (fun u => u ∉ seen)).length ≤ n →
      ∃ fuel out, walkAux g fuel tv seen = some out := by
  intro n
  induction n with
  | zero =>
    intro tv seen htv hn
    have hall : ∀ u ∈ keys g ++ allDests g, u ∈ seen := by
      intro u hu
      by_contra hus
      have : u ∈ (keys g ++ allDests g).filter (fun u => u ∉ seen) :=
        List.mem_filter.2 ⟨hu, by simpa using hus⟩
      have hpos : 0 < ((keys g ++ allDests g).filter (fun u => u ∉ seen)).length :=
        List.length_pos.2 (fun hnil => by rw [hnil] at this; simp at this)
      omega
    clear hn
    induction tv with
    | nil => exact ⟨0, seen, by simp [walkAux]⟩
    | cons next rest ihtv =>
      have hnext : next ∈ seen := hall next (htv next (List.mem_cons_self _ _))
      have hpush : (depsOf g next).filter (fun d => d ∉ seen) = [] := by
        rw [List.filter_eq_nil]
        intro d hd
        simpa using hall d (List.mem_append.2 (Or.inr (depsOf_subset_allDests g next d hd)))
      obtain ⟨fuel, out, hf⟩ :=
        ihtv (fun y hy => htv y (List.mem_cons_of_mem _ hy))
      refine ⟨fuel + 1, out, ?_⟩
      simp only [walkAux, hpush, List.append_nil]
      rw [setAdd, if_pos hnext]
      exact hf
  | succ n ihn =>
    intro tv seen htv hn
    have inner : ∀ (m : Nat) (tv seen : List T),
        (∀ y ∈ tv, y ∈ keys g ++ allDests g) →
        ((keys g ++ allDests g).filter (fun u => u ∉ seen)).length ≤ n + 1 →
        (tv.takeWhile (fun y => y ∈ seen)).length ≤ m →
        ∃ fuel out, walkAux g fuel tv seen = some out := by
      intro m
      induction m with
      | zero =>
        intro tv seen htv hn hm
        cases tv with
        | nil => exact ⟨0, seen, by simp [walkAux]⟩
        | cons next rest =>
          have hnext : next ∉ seen := by
            intro hns
            simp [List.takeWhile, hns] at hm
          have htv' : ∀ y ∈ rest ++ (depsOf g next).filter (fun d => d ∉ seen),
              y ∈ keys g ++ allDests g := by
            intro y hy
            rcases List.mem_append.1 hy with hy | hy
            · exact htv y (List.mem_cons_of_mem _ hy)
            · exact List.mem_append.2
                (Or.inr (depsOf_subset_allDests g next y (List.mem_filter.1 hy).1))
          have hlt : ((keys g ++ allDests g).filter
              (fun u => u ∉ setAdd seen next)).length <
              ((keys g ++ allDests g).filter (fun u => u ∉ seen)).length := by
            apply filter_length_lt _ _ _ ?_ next
              (htv next (List.mem_cons_self _ _)) (by simpa using hnext)
              (by simp [mem_setAdd])
            intro x hx
            simp only [decide_eq_true_eq] at hx ⊢
            intro hxs
            exact hx ((mem_setAdd seen next x).2 (Or.inl hxs))
          obtain ⟨fuel, out, hf⟩ := ihn _ (setAdd seen next) htv' (by omega)
          exact ⟨fuel + 1, out, by simp only [walkAux]; exact hf⟩
      | succ m ihm =>
        intro tv seen htv hn hm
        cases tv with
        | nil => exact ⟨0, seen, by simp [walkAux]⟩
        | cons next rest =>
          by_cases hnext : next ∈ seen
          · have hseen' : setAdd seen next = seen := by rw [setAdd, if_pos hnext]
            have htv' : ∀ y ∈ rest ++ (depsOf g next).filter (fun d => d ∉ seen),
                y ∈ keys g ++ allDests g := by
              intro y hy
              rcases List.mem_append.1 hy with hy | hy
              · exact htv y (List.mem_cons_of_mem _ hy)
              · exact List.mem_append.2
                  (Or.inr (depsOf_subset_allDests g next y (List.mem_filter.1 hy).1))
            have hmtail : (rest.takeWhile (fun y => y ∈ seen)).length ≤ m := by
              simp [List.takeWhile, hnext] at hm
              omega
            have hm' : ((rest ++ (depsOf g next).filter (fun d => d ∉ seen)).takeWhile
                (fun y => y ∈ seen)).length ≤ m := by
              have hb := takeWhile_append_bound (fun y => decide (y ∈ seen)) rest
                ((depsOf g next).filter (fun d => d ∉ seen)) ?_
              · calc ((rest ++ (depsOf g next).filter
                      (fun d => d ∉ seen)).takeWhile (fun y => y ∈ seen)).length
                    ≤ (rest.takeWhile (fun y => y ∈ seen)).length := hb
                  _ ≤ m := hmtail
              · intro y hy
                have := (List.mem_filter.1 hy).2
                simpa using this
            obtain ⟨fuel, out, hf⟩ := ihm _ seen htv' hn hm'
            refine ⟨fuel + 1, out, ?_⟩
            simp only [walkAux, hseen']
            exact hf
          · have htv' : ∀ y ∈ rest ++ (depsOf g next).filter (fun d => d ∉ seen),
                y ∈ keys g ++ allDests g := by
              intro y hy
              rcases List.mem_append.1 hy with hy | hy
              · exact htv y (List.mem_cons_of_mem _ hy)
              · exact List.mem_append.2
                  (Or.inr (depsOf_subset_allDests g next y (List.mem_filter.1 hy).1))
            have hlt : ((keys g ++ allDests g).filter
                (fun u => u ∉ setAdd seen next)).length <
                ((keys g ++ allDests g).filter (fun u => u ∉ seen)).length := by
              apply filter_length_lt _ _ _ ?_ next
                (htv next (List.mem_cons_self _ _)) (by simpa using hnext)
                (by simp [mem_setAdd])
              intro x hx
              simp only [decide_eq_true_eq] at hx ⊢
              intro hxs
              exact hx ((mem_setAdd seen next x).2 (Or.inl hxs))
            obtain ⟨fuel, out, hf⟩ := ihn _ (setAdd seen next) htv' (by omega)
            exact ⟨fuel + 1, out, by simp only [walkAux]; exact hf⟩
    exact inner (tv.takeWhile (fun y => y ∈ seen)).length tv seen htv hn (le_refl _)

/-! ### Claims C7 and C10: `walk` reachability and termination -/

/-- Claim C7: whenever the `walk` loop completes from a key of a built
graph, the returned set is exactly the set of nodes reachable from `start`
along outgoing edges, including `start` itself. -/
theorem C7_walk_reachable_set (g : DirectedGraph T) (start : T)
    (hb : Built g) (hs : start ∈ keys g) (fuel : Nat) (out : List T)
    (h : walk g start fuel = some out) :
    ∀ x, x ∈ out ↔ Relation.ReflTransGen (EdgeRel g) start x := by
  unfold walk at h
  intro x
  constructor
  · intro hx
    refine walkAux_sound g start fuel [start] [] out ?_ ?_ h x hx
    · intro y hy
      simp at hy
      subst hy
      exact Relation.ReflTransGen.refl
    · intro y hy
      simp at hy
  · intro hx
    obtain ⟨hstart, hclosed⟩ :=
      walkAux_closed g start fuel [start] [] out
        (Or.inl (List.mem_cons_self _ _)) (by intro x hx; simp at hx) h
    induction hx with
    | refl => exact hstart
    | tail h1 h2 ih => exact hclosed _ ih _ h2

/-- Witness for C7 on the graph `a → b`, walked from `a`. -/
theorem C7_walk_reachable_set_witness :
    "b" ∈ ["a", "b"] ↔
      Relation.ReflTransGen
        (EdgeRel (addAll ([] : DirectedGraph String) "a" ["b"])) "a" "b" :=
  C7_walk_reachable_set _ "a" (Built.step [] "a" ["b"] Built.empty)
    (by decide) 5 ["a", "b"] (by decide) "b"

/-- Claim C10: on every built graph (cyclic ones included) and every start
node that is a key, the `walk` loop terminates: some finite fuel makes it
complete, despite duplicate queue entries. -/
theorem C10_walk_terminates (g : DirectedGraph T) (start : T)
    (hb : Built g) (hs : start ∈ keys g) :
    ∃ fuel out, walk g start fuel = some out := by
  unfold walk
  exact walkAux_term g ((keys g ++ allDests g).filter
      (fun u => u ∉ ([] : List T))).length [start] []
    (fun y hy => by simp at hy; subst hy; exact List.mem_append.2 (Or.inl hs))
    (le_refl _)

/-- Witness for C10 on the cyclic graph `x → y → x`, walked from `x`. -/
theorem C10_walk_terminates_witness :
    ∃ fuel out,
      walk (addAll (addAll ([] : DirectedGraph String) "x" ["y"]) "y" ["x"])
        "x" fuel = some out :=
  C10_walk_terminates _ "x"
    (Built.step _ "y" ["x"] (Built.step [] "x" ["y"] Built.empty)) (by decide)

/-! ### Characterization of `indegrees` -/

/-- Number of occurrences of an element in a list. -/
def countOcc [DecidableEq T] : List T → T → Nat
  | [], _ => 0
  | a :: rest, x => (if x = a then 1 else 0) + countOcc rest x

theorem countOcc_append (l1 l2 : List T) (x : T) :
    countOcc (l1 ++ l2) x = countOcc l1 x + countOcc l2 x := by
  induction l1 with
  | nil => simp [countOcc]
  | cons a rest ih =>
    have ih2 : countOcc (rest.append l2) x = countOcc rest x + countOcc l2 x := ih
    simp only [List.cons_append, countOcc]
    omega

theorem countOcc_pos_iff (l : List T) (x : T) : 0 < countOcc l x ↔ x ∈ l := by
  induction l with
  | nil => simp [countOcc]
  | cons a rest ih =>
    by_cases h : x = a
    · simp [countOcc, h]
    · simp [countOcc, h, ih]

theorem countOcc_eq_zero (l : List T) (x : T) (h : x ∉ l) : countOcc l x = 0 := by
  have := (countOcc_pos_iff l x).2
  by_contra hc
  exact h ((countOcc_pos_iff l x).1 (by omega))

theorem countOcc_nodup_mem (l : List T) (x : T) (hnd : l.Nodup) (hx : x ∈ l) :
    countOcc l x = 1 := by
  induction l with
  | nil => simp at hx
  | cons a rest ih =>
    rw [List.nodup_cons] at hnd
    by_cases h : x = a
    · subst h
      simp [countOcc, countOcc_eq_zero rest x hnd.1]
    · rcases List.mem_cons.1 hx with hh | hh
      · exact absurd hh h
      · simp [countOcc, h, ih hnd.2 hh]

/-- The in-degree of a node: one per occurrence of the node in any entry's
edge set. -/
def inDegOf [DecidableEq T] (g : DirectedGraph T) (x : T) : Int :=
  (g.map (fun e => (countOcc e.2 x : Int))).sum

theorem lookupD_bumpDeg (m : List (T × Int)) (nb x : T) :
    (lookupKey (bumpDeg m nb) x).getD 0 =
      (lookupKey m x).getD 0 + (if x = nb then 1 else 0) := by
  unfold bumpDeg
  rw [lookupKey_setKey]
  by_cases h : x = nb
  · subst h
    simp
  · simp [h]

theorem containsKey_bumpDeg (m : List (T × Int)) (nb x : T) :
    containsKey (bumpDeg m nb) x = true ↔ containsKey m x = true ∨ x = nb := by
  unfold bumpDeg containsKey
  rw [lookupKey_setKey]
  by_cases h : x = nb
  · simp [h]
  · simp [h]

theorem nodup_keysM_bumpDeg (m : List (T × Int)) (nb : T)
    (h : (keysM m).Nodup) : (keysM (bumpDeg m nb)).Nodup := by
  unfold bumpDeg
  rw [keysM_setKey]
  by_cases hc : containsKey m nb
  · simpa [hc]
  · rw [if_neg (by simp [hc])]
    have hdm : nb ∉ keysM m := fun hm => by
      rw [← containsKey_iff_mem_keysM] at hm
      exact absurd hm (by simp [hc])
    refine List.Nodup.append h (List.nodup_singleton nb) ?_
    intro a ha hax
    simp at hax
    subst hax
    exact hdm ha

theorem lookupD_bumpFold (nbs : List T) (m : List (T × Int)) (x : T) :
    (lookupKey (nbs.foldl bumpDeg m) x).getD 0 =
      (lookupKey m x).getD 0 + (countOcc nbs x : Int) := by
  induction nbs generalizing m with
  | nil => simp [countOcc]
  | cons nb rest ih =>
    simp only [List.foldl_cons]
    rw [ih, lookupD_bumpDeg]
    simp only [countOcc]
    push_cast
    ring

theorem containsKey_bumpFold (nbs : List T) (m : List (T × Int)) (x : T) :
    containsKey (nbs.foldl bumpDeg m) x = true ↔
      containsKey m x = true ∨ x ∈ nbs := by
  induction nbs generalizing m with
  | nil => simp
  | cons nb rest ih =>
    simp only [List.foldl_cons]
    rw [ih, containsKey_bumpDeg]
    simp only [List.mem_cons]
    tauto

theorem nodup_keysM_bumpFold (nbs : List T) (m : List (T × Int))
    (h : (keysM m).Nodup) : (keysM (nbs.foldl bumpDeg m)).Nodup := by
  induction nbs generalizing m with
  | nil => simpa
  | cons nb rest ih =>
    simp only [List.foldl_cons]
    exact ih _ (nodup_keysM_bumpDeg m nb h)

theorem lookupD_indegreesStep (m : List (T × Int)) (e : T × List T) (x : T) :
    (lookupKey (indegreesStep m e) x).getD 0 =
      (lookupKey m x).getD 0 + (countOcc e.2 x : Int) := by
  unfold indegreesStep
  rw [lookupD_bumpFold]
  by_cases hc : containsKey m e.1
  · rw [if_pos hc]
  · rw [if_neg (by simp [hc]), lookupKey_append]
    cases hl : lookupKey m x with
    | some v => simp
    | none =>
      by_cases hx : x = e.1
      · subst hx
        simp [lookupKey, hl]
      · simp [lookupKey, hl, hx]

theorem containsKey_indegreesStep (m : List (T × Int)) (e : T × List T) (x : T) :
    containsKey (indegreesStep m e) x = true ↔
      containsKey m x = true ∨ x = e.1 ∨ x ∈ e.2 := by
  unfold indegreesStep
  rw [containsKey_bumpFold]
  by_cases hc : containsKey m e.1
  · rw [if_pos hc]
    constructor
    · rintro (h | h)
      · exact Or.inl h
      · exact Or.inr (Or.inr h)
    · rintro (h | h | h)
      · exact Or.inl h
      · subst h; exact Or.inl hc
      · exact Or.inr h
  · rw [if_neg (by simp [hc]), containsKey_append_single]
    tauto

theorem nodup_keysM_indegreesStep (m : List (T × Int)) (e : T × List T)
    (h : (keysM m).Nodup) : (keysM (indegreesStep m e)).Nodup := by
  unfold indegreesStep
  apply nodup_keysM_bumpFold
  by_cases hc : containsKey m e.1
  · simpa [hc]
  · rw [if_neg (by simp [hc])]
    exact nodup_keysM_append_single m e.1 0 h (by simp [hc])

theorem lookupD_indegreesFold (l : List (T × List T)) (m : List (T × Int)) (x : T) :
    (lookupKey (l.foldl indegreesStep m) x).getD 0 =
      (lookupKey m x).getD 0 + (l.map (fun e => (countOcc e.2 x : Int))).sum := by
  induction l generalizing m with
  | nil => simp
  | cons e rest ih =>
    simp only [List.foldl_cons, List.map_cons, List.sum_cons]
    rw [ih, lookupD_indegreesStep]
    ring

theorem containsKey_indegreesFold (l : List (T × List T)) (m : List (T × Int)) (x : T) :
    containsKey (l.foldl indegreesStep m) x = true ↔
      containsKey m x = true ∨ ∃ e ∈ l, x = e.1 ∨ x ∈ e.2 := by
  induction l generalizing m with
  | nil => simp
  | cons e rest ih =>
    simp only [List.foldl_cons]
    rw [ih, containsKey_indegreesStep]
    simp only [List.mem_cons]
    constructor
    · rintro ((h | h | h) | ⟨f, hf, h⟩)
      · exact Or.inl h
      · exact Or.inr ⟨e, Or.inl rfl, Or.inl h⟩
      · exact Or.inr ⟨e, Or.inl rfl, Or.inr h⟩
      · exact Or.inr ⟨f, Or.inr hf, h⟩
    · rintro (h | ⟨f, hf | hf, h⟩)
      · exact Or.inl (Or.inl h)
      · subst hf; exact Or.inl (Or.inr h)
      · exact Or.inr ⟨f, hf, h⟩

theorem lookupD_indegrees (g : DirectedGraph T) (x : T) :
    (lookupKey (indegrees g) x).getD 0 = inDegOf g x := by
  unfold indegrees inDegOf
  rw [lookupD_indegreesFold]
  simp [lookupKey]

theorem nodup_keysM_indegrees (g : DirectedGraph T) :
    (keysM (indegrees g)).Nodup := by
  unfold indegrees
  have : ∀ (l : List (T × List T)) (m : List (T × Int)), (keysM m).Nodup →
      (keysM (l.foldl indegreesStep m)).Nodup := by
    intro l
    induction l with
    | nil => intro m hm; simpa
    | cons e rest ih =>
      intro m hm
      exact ih _ (nodup_keysM_indegreesStep m e hm)
  exact this g [] (by simp [keysM])

theorem containsKey_indegrees (g : DirectedGraph T) (x : T) :
    containsKey (indegrees g) x = true ↔ ∃ e ∈ g, x = e.1 ∨ x ∈ e.2 := by
  unfold indegrees
  rw [containsKey_indegreesFold]
  simp [containsKey, lookupKey]

/-- For a well-formed graph, the in-degree map has exactly the graph's keys. -/
theorem containsKey_indegrees_wf (g : DirectedGraph T) (hwf : WF g) (x : T) :
    containsKey (indegrees g) x = true ↔ x ∈ keys g := by
  rw [containsKey_indegrees]
  constructor
  · rintro ⟨e, he, h | h⟩
    · rw [h]
      exact List.mem_map_of_mem Prod.fst he
    · have hmem : (e.1, e.2) ∈ g := by simpa using he
      have hl := lookupKey_of_mem_nodup g e.1 e.2 hwf.nodupKeys hmem
      have hd : x ∈ depsOf g e.1 := by
        unfold depsOf
        rw [hl]
        exact h
      exact (containsKey_iff_mem_keysM g x).1 (hwf.closure e.1 x hd)
  · intro h
    rcases List.mem_map.1 h with ⟨e, he, h2⟩
    exact ⟨e, he, Or.inl h2.symm⟩

/-- Entry values of the in-degree map are the true in-degrees. -/
theorem mem_indegrees_value (g : DirectedGraph T) (x : T) (v : Int)
    (h : (x, v) ∈ indegrees g) : v = inDegOf g x := by
  have hl := lookupKey_of_mem_nodup (indegrees g) x v (nodup_keysM_indegrees g) h
  have := lookupD_indegrees g x
  rw [hl] at this
  simpa using this

/-! ### Claim C8: all-positive in-degrees abort the sort with no-source -/

/-- Claim C8: on a non-empty built graph in which every node has in-degree
at least 1, `topoSort` fails the `sources.length > 0` assertion and aborts
with the no-source error, producing no ordering. -/
theorem C8_topoSort_no_source (g : DirectedGraph T) (hb : Built g)
    (hne : g ≠ []) (hdeg : ∀ x ∈ keys g, 1 ≤ inDegOf g x) :
    topoSort g = TopoResult.errNoSource := by
  have hwf := wf_of_built g hb
  unfold topoSort
  have hsrc : sourcesOf (indegrees g) = [] := by
    unfold sourcesOf
    rw [List.map_eq_nil, List.filter_eq_nil]
    rintro ⟨x, v⟩ hmem hv
    simp only [decide_eq_true_eq] at hv
    have hval := mem_indegrees_value g x v hmem
    have hx : x ∈ keys g := by
      rw [← containsKey_indegrees_wf g hwf]
      rw [containsKey_iff_mem_keysM]
      exact List.mem_map_of_mem Prod.fst hmem
    have := hdeg x hx
    omega
  simp [hsrc]

/-- Witness for C8 on the two-node cycle `x → y, y → x`. -/
theorem C8_topoSort_no_source_witness :
    topoSort (addAll (addAll ([] : DirectedGraph String) "x" ["y"]) "y" ["x"]) =
      TopoResult.errNoSource :=
  C8_topoSort_no_source _
    (Built.step _ "y" ["x"] (Built.step [] "x" ["y"] Built.empty))
    (by decide) (by decide)

/-! ### A pigeonhole lemma: a finite set in which every element has a
predecessor contains a cycle -/

/-- Pick some predecessor of `y` inside `S` (first match). -/
def choosePred (S : List T) (R : T → T → Bool) (y dflt : T) : T :=
  (S.find? (fun a => R a y)).getD dflt

theorem choosePred_spec (S : List T) (R : T → T → Bool) (y dflt : T)
    (h : ∃ a ∈ S, R a y = true) :
    choosePred S R y dflt ∈ S ∧ R (choosePred S R y dflt) y = true := by
  unfold choosePred
  cases hf : S.find? (fun a => R a y) with
  | none =>
    exfalso
    obtain ⟨a, ha, hra⟩ := h
    have : (S.find? (fun a => R a y)).isSome = true :=
      List.find?_isSome.2 ⟨a, ha, hra⟩
    rw [hf] at this
    simp at this
  | some a =>
    simp only [Option.getD_some]
    refine ⟨List.mem_of_find?_eq_some hf, ?_⟩
    have h2 := List.find?_some hf
    simpa using h2

/-- Iterated predecessor choice. -/
def predSeq (S : List T) (R : T → T → Bool) (x0 : T) : Nat → T
  | 0 => x0
  | n + 1 => choosePred S R (predSeq S R x0 n) x0

theorem predSeq_spec (S : List T) (R : T → T → Bool) (x0 : T) (hx0 : x0 ∈ S)
    (h : ∀ y ∈ S, ∃ a ∈ S, R a y = true) :
    ∀ n, predSeq S R x0 n ∈ S ∧ R (predSeq S R x0 (n + 1)) (predSeq S R x0 n) = true := by
  intro n
  induction n with
  | zero =>
    refine ⟨hx0, ?_⟩
    exact (choosePred_spec S R x0 x0 (h x0 hx0)).2
  | succ n ih =>
    have hmem : predSeq S R x0 (n + 1) ∈ S := by
      show choosePred S R (predSeq S R x0 n) x0 ∈ S
      exact (choosePred_spec S R _ x0 (h _ ih.1)).1
    refine ⟨hmem, ?_⟩
    exact (choosePred_spec S R _ x0 (h _ hmem)).2

theorem predSeq_chain (S : List T) (R : T → T → Bool) (x0 : T) (hx0 : x0 ∈ S)
    (h : ∀ y ∈ S, ∃ a ∈ S, R a y = true) :
    ∀ (d i : Nat), Relation.TransGen (fun a b => R a b = true)
      (predSeq S R x0 (i + d + 1)) (predSeq S R x0 i) := by
  intro d
  induction d with
  | zero =>
    intro i
    exact Relation.TransGen.single (predSeq_spec S R x0 hx0 h i).2
  | succ d ih =>
    intro i
    have hstep := (predSeq_spec S R x0 hx0 h (i + d + 1)).2
    have : i + (d + 1) + 1 = (i + d + 1) + 1 := by omega
    rw [this]
    exact Relation.TransGen.head hstep (ih i)

theorem exists_cycle_of_forall_pred (S : List T) (R : T → T → Bool) (x0 : T)
    (hx0 : x0 ∈ S) (h : ∀ y ∈ S, ∃ a ∈ S, R a y = true) :
    ∃ c ∈ S, Relation.TransGen (fun a b => R a b = true) c c := by
  classical
  have hmaps : ∀ n ∈ Finset.range (S.length + 1), predSeq S R x0 n ∈ S.toFinset := by
    intro n _
    rw [List.mem_toFinset]
    exact (predSeq_spec S R x0 hx0 h n).1
  have hcard : S.toFinset.card < (Finset.range (S.length + 1)).card := by
    rw [Finset.card_range]
    have := S.toFinset_card_le
    omega
  obtain ⟨i, hi, j, hj, hij, heq⟩ :=
    Finset.exists_ne_map_eq_of_card_lt_of_maps_to hcard hmaps
  have key : ∀ (i j : Nat), i < j → predSeq S R x0 i = predSeq S R x0 j →
      ∃ c ∈ S, Relation.TransGen (fun a b => R a b = true) c c := by
    intro i j hlt he
    refine ⟨predSeq S R x0 i, (predSeq_spec S R x0 hx0 h i).1, ?_⟩
    have hchain := predSeq_chain S R x0 hx0 h (j - i - 1) i
    have : i + (j - i - 1) + 1 = j := by omega
    rw [this] at hchain
    rw [← he] at hchain
    exact hchain
  rcases Nat.lt_or_ge i j with hlt | hge
  · exact key i j hlt heq
  · have hlt : j < i := by omega
    exact key j i hlt heq.symm

/-! ### `idxOf` and sum lemmas -/

theorem idxOf_lt_length (l : List T) (x : T) (h : x ∈ l) : idxOf l x < l.length := by
  induction l with
  | nil => simp at h
  | cons a rest ih =>
    by_cases hx : x = a
    · simp [idxOf, hx]
    · rcases List.mem_cons.1 h with hh | hh
      · exact absurd hh hx
      · simp only [idxOf, if_neg hx, List.length_cons]
        exact Nat.succ_lt_succ (ih hh)

theorem idxOf_append_left (l l2 : List T) (x : T) (h : x ∈ l) :
    idxOf (l ++ l2) x = idxOf l x := by
  induction l with
  | nil => simp at h
  | cons a rest ih =>
    by_cases hx : x = a
    · simp [idxOf, hx]
    · rcases List.mem_cons.1 h with hh | hh
      · exact absurd hh hx
      · simp only [List.cons_append, idxOf, if_neg hx]
        exact congrArg (fun n => n + 1) (ih hh)

theorem idxOf_append_self (l : List T) (x : T) (h : x ∉ l) :
    idxOf (l ++ [x]) x = l.length := by
  induction l with
  | nil => simp [idxOf]
  | cons a rest ih =>
    have hx : ¬ x = a := fun hh => h (by rw [hh]; exact List.mem_cons_self a rest)
    simp only [List.cons_append, idxOf, if_neg hx, List.length_cons]
    exact congrArg (fun n => n + 1) (ih (fun hh => h (List.mem_cons_of_mem a hh)))

theorem sum_nonneg_int (l : List Int) (h : ∀ v ∈ l, 0 ≤ v) : 0 ≤ l.sum := by
  induction l with
  | nil => simp
  | cons a rest ih =>
    simp only [List.sum_cons]
    have h1 := h a (List.mem_cons_self a rest)
    have h2 := ih (fun v hv => h v (List.mem_cons_of_mem a hv))
    omega

theorem sum_pos_int (l : List Int) (h : ∀ v ∈ l, 0 ≤ v) (a : Int) (ha : a ∈ l)
    (hpos : 0 < a) : 0 < l.sum := by
  induction l with
  | nil => simp at ha
  | cons b rest ih =>
    simp only [List.sum_cons]
    have hb := h b (List.mem_cons_self b rest)
    rcases List.mem_cons.1 ha with hh | hh
    · have h2 := sum_nonneg_int rest (fun v hv => h v (List.mem_cons_of_mem b hv))
      omega
    · have h2 := ih (fun v hv => h v (List.mem_cons_of_mem b hv)) hh
      omega

theorem getLast?_decomp (l : List T) (a : T) (h : l.getLast? = some a) :
    l = l.dropLast ++ [a] := by
  induction l using List.reverseRecOn with
  | nil => simp at h
  | append_singleton l b _ =>
    have hb : b = a := by
      rw [List.getLast?_concat] at h
      simpa using h
    subst hb
    rw [List.dropLast_concat]

/-! ### Emitted and residual in-degrees for the Kahn loop -/

/-- Total number of edges into `x` from nodes of `order` (the emitted
nodes), counted as the loop decrements them. -/
def emitDeg [DecidableEq T] (g : DirectedGraph T) (order : List T) (x : T) : Int :=
  (order.map (fun a => (countOcc (depsOf g a) x : Int))).sum

/-- Total number of edges into `x` from entries whose key has not been
emitted yet. -/
def remDeg [DecidableEq T] (g : DirectedGraph T) (order : List T) (x : T) : Int :=
  ((g.filter (fun e => e.1 ∉ order)).map (fun e => (countOcc e.2 x : Int))).sum

theorem emitDeg_nil (g : DirectedGraph T) (x : T) : emitDeg g [] x = 0 := by
  simp [emitDeg]

theorem emitDeg_append_single (g : DirectedGraph T) (order : List T) (node x : T) :
    emitDeg g (order ++ [node]) x =
      emitDeg g order x + (countOcc (depsOf g node) x : Int) := by
  simp [emitDeg]

theorem remDeg_extract (g : DirectedGraph T) (hnd : (keysM g).Nodup)
    (a : T) (ha : a ∈ keysM g) (rest : List T) (har : a ∉ rest) (x : T) :
    remDeg g rest x =
      (countOcc (depsOf g a) x : Int) + remDeg g (a :: rest) x := by
  induction g with
  | nil => simp [keysM] at ha
  | cons e gt ih =>
    obtain ⟨k, d⟩ := e
    rw [keysM_cons, List.nodup_cons] at hnd
    by_cases hk : k = a
    · subst hk
      have hdeps : depsOf ((k, d) :: gt) k = d := by
        simp [depsOf, lookupKey]
      have hfilters : gt.filter (fun e => e.1 ∉ rest) =
          gt.filter (fun e => e.1 ∉ k :: rest) := by
        apply List.filter_congr
        intro e he
        have hek : e.1 ≠ k := by
          intro hh
          apply hnd.1
          rw [← hh]
          show e.1 ∈ keysM gt
          exact List.mem_map_of_mem Prod.fst he
        simp only [List.mem_cons, decide_eq_decide]
        tauto
      unfold remDeg
      rw [List.filter_cons, List.filter_cons]
      rw [if_pos (by simpa using har), if_neg (by simp)]
      simp only [List.map_cons, List.sum_cons]
      rw [hfilters, hdeps]
    · have ha' : a ∈ keysM gt := by
        rw [keysM_cons] at ha
        rcases List.mem_cons.1 ha with hh | hh
        · exact absurd hh.symm hk
        · exact hh
      have hdeps : depsOf ((k, d) :: gt) a = depsOf gt a := by
        have hak : ¬ a = k := fun hh => hk hh.symm
        simp [depsOf, lookupKey, hak]
      have hrec := ih hnd.2 ha'
      unfold remDeg at hrec ⊢
      rw [List.filter_cons, List.filter_cons]
      have hsame : ((k, d).1 ∉ rest) ↔ ((k, d).1 ∉ a :: rest) := by
        simp only [List.mem_cons]
        constructor
        · intro hh hc
          rcases hc with hc | hc
          · exact hk hc
          · exact hh hc
        · intro hh hc
          exact hh (Or.inr hc)
      by_cases hin : (k, d).1 ∉ rest
      · rw [if_pos (by simpa using hin), if_pos (by simpa using hsame.1 hin)]
        simp only [List.map_cons, List.sum_cons]
        rw [hdeps, hrec]
        ring
      · rw [if_neg (by simpa using hin),
          if_neg (by simpa using fun hh => hin (hsame.2 hh))]
        rw [hdeps, hrec]

theorem inDegOf_split (g : DirectedGraph T) (hnd : (keysM g).Nodup)
    (order : List T) (hond : order.Nodup) (hok : ∀ a ∈ order, a ∈ keysM g) (x : T) :
    inDegOf g x = emitDeg g order x + remDeg g order x := by
  induction order with
  | nil =>
    rw [emitDeg_nil]
    unfold inDegOf remDeg
    have : g.filter (fun e => e.1 ∉ ([] : List T)) = g := by
      apply List.filter_eq_self.2
      intro e _
      simp
    rw [this]
    ring
  | cons a rest ih =>
    rw [List.nodup_cons] at hond
    have hrec := ih hond.2 (fun b hb => hok b (List.mem_cons_of_mem a hb))
    have hext := remDeg_extract g hnd a (hok a (List.mem_cons_self a rest))
      rest hond.1 x
    unfold emitDeg at hrec ⊢
    simp only [List.map_cons, List.sum_cons]
    rw [hext] at hrec
    rw [hrec]
    ring

theorem remDeg_nonneg (g : DirectedGraph T) (order : List T) (x : T) :
    0 ≤ remDeg g order x := by
  apply sum_nonneg_int
  intro v hv
  rcases List.mem_map.1 hv with ⟨e, _, he⟩
  rw [← he]
  exact Int.natCast_nonneg _

theorem remDeg_pos_of_edge (g : DirectedGraph T) (order : List T) (a x : T)
    (hao : a ∉ order) (hedge : x ∈ depsOf g a) : 0 < remDeg g order x := by
  unfold depsOf at hedge
  cases hl : lookupKey g a with
  | none => rw [hl] at hedge; simp at hedge
  | some d =>
    rw [hl] at hedge
    simp only [Option.getD_some] at hedge
    have hmem : (a, d) ∈ g := mem_of_lookupKey g a d hl
    have hmemf : (a, d) ∈ g.filter (fun e => e.1 ∉ order) :=
      List.mem_filter.2 ⟨hmem, by simpa using hao⟩
    apply sum_pos_int _ ?_ ((countOcc d x : Int)) ?_ ?_
    · intro v hv
      rcases List.mem_map.1 hv with ⟨e, _, he⟩
      rw [← he]
      exact Int.natCast_nonneg _
    · exact List.mem_map_of_mem (fun e => (countOcc e.2 x : Int)) hmemf
    · have := (countOcc_pos_iff d x).2 hedge
      omega

/-! ### The Kahn inner fold -/

theorem containsKey_setKey (m : List (T × α)) (k : T) (v : α) (x : T) :
    containsKey (setKey m k v) x = true ↔ containsKey m x = true ∨ x = k := by
  unfold containsKey
  rw [lookupKey_setKey]
  by_cases h : x = k
  · simp [h]
  · simp [h]

theorem nodup_keysM_setKey (m : List (T × α)) (k : T) (v : α)
    (h : (keysM m).Nodup) : (keysM (setKey m k v)).Nodup := by
  rw [keysM_setKey]
  by_cases hc : containsKey m k
  · simpa [hc]
  · rw [if_neg (by simp [hc])]
    have hkm : k ∉ keysM m := fun hm => by
      rw [← containsKey_iff_mem_keysM] at hm
      exact absurd hm (by simp [hc])
    refine List.Nodup.append h (List.nodup_singleton k) ?_
    intro a ha hax
    simp at hax
    subst hax
    exact hkm ha

theorem countPos_cons (k : T) (v : Int) (m : List (T × Int)) :
    countPos ((k, v) :: m) = (if 0 < v then 1 else 0) + countPos m := by
  unfold countPos
  rw [List.filter_cons]
  by_cases h : 0 < v
  · simp [h]
    omega
  · simp [h]

theorem countPos_setKey_dec (m : List (T × Int)) (nb : T) :
    countPos (setKey m nb ((lookupKey m nb).getD 0 - 1)) +
      (if (lookupKey m nb).getD 0 - 1 = 0 then 1 else 0) ≤ countPos m := by
  induction m with
  | nil =>
    simp only [lookupKey, setKey, Option.getD_none]
    rw [countPos_cons]
    norm_num [countPos]
  | cons e rest ih =>
    obtain ⟨k, w⟩ := e
    by_cases hk : nb = k
    · subst hk
      have hval : (lookupKey ((nb, w) :: rest) nb).getD 0 = w := by
        simp [lookupKey]
      rw [hval]
      have hs : setKey ((nb, w) :: rest) nb (w - 1) = (nb, w - 1) :: rest := by
        simp [setKey]
      rw [hs, countPos_cons, countPos_cons]
      split_ifs <;> omega
    · have hl : lookupKey ((k, w) :: rest) nb = lookupKey rest nb := by
        simp [lookupKey, hk]
      have hs : setKey ((k, w) :: rest) nb ((lookupKey rest nb).getD 0 - 1) =
          (k, w) :: setKey rest nb ((lookupKey rest nb).getD 0 - 1) := by
        simp [setKey, hk]
      rw [hl, hs, countPos_cons, countPos_cons]
      omega

/-- Full characterization of the neighbour-processing fold. -/
theorem kahnFold_spec (nbs : List T) (hnd : nbs.Nodup) :
    ∀ (m : List (T × Int)) (p : List T),
      (∀ x, (lookupKey (nbs.foldl (fun acc nb => kahnVisit acc.1 acc.2 nb) (m, p)).1
          x).getD 0 = (lookupKey m x).getD 0 - (countOcc nbs x : Int)) ∧
      (nbs.foldl (fun acc nb => kahnVisit acc.1 acc.2 nb) (m, p)).2 =
        p ++ nbs.filter (fun x => (lookupKey m x).getD 0 = 1) ∧
      (∀ x, containsKey (nbs.foldl (fun acc nb => kahnVisit acc.1 acc.2 nb) (m, p)).1
          x = true ↔ containsKey m x = true ∨ x ∈ nbs) ∧
      ((keysM m).Nodup →
        (keysM (nbs.foldl (fun acc nb => kahnVisit acc.1 acc.2 nb) (m, p)).1).Nodup) ∧
      countPos (nbs.foldl (fun acc nb => kahnVisit acc.1 acc.2 nb) (m, p)).1 +
          (nbs.foldl (fun acc nb => kahnVisit acc.1 acc.2 nb) (m, p)).2.length ≤
        countPos m + p.length := by
  induction nbs with
  | nil =>
    intro m p
    refine ⟨?_, ?_, ?_, ?_, ?_⟩ <;> simp [countOcc]
  | cons nb rest ih =>
    intro m p
    rw [List.nodup_cons] at hnd
    have ihr := ih hnd.2
    simp only [List.foldl_cons]
    have hm1 : (kahnVisit m p nb).1 = setKey m nb ((lookupKey m nb).getD 0 - 1) := rfl
    have hp1 : (kahnVisit m p nb).2 =
        if (lookupKey m nb).getD 0 - 1 = 0 then p ++ [nb] else p := rfl
    obtain ⟨iha, ihb, ihc, ihd, ihe⟩ := ihr (kahnVisit m p nb).1 (kahnVisit m p nb).2
    refine ⟨?_, ?_, ?_, ?_, ?_⟩
    · intro x
      rw [iha x, hm1, lookupKey_setKey]
      by_cases hx : x = nb
      · subst hx
        rw [if_pos rfl]
        simp only [Option.getD_some]
        have h0 : countOcc rest x = 0 := countOcc_eq_zero rest x hnd.1
        simp only [countOcc, if_pos rfl, h0]
        push_cast
        ring
      · rw [if_neg hx]
        simp only [countOcc, if_neg hx]
        push_cast
        ring
    · rw [ihb, hp1]
      have hfc : rest.filter
            (fun x => (lookupKey (kahnVisit m p nb).1 x).getD 0 = 1) =
          rest.filter (fun x => (lookupKey m x).getD 0 = 1) := by
        apply List.filter_congr
        intro y hy
        have hyn : ¬ y = nb := fun hh => hnd.1 (hh ▸ hy)
        rw [hm1, lookupKey_setKey, if_neg hyn]
      rw [hfc, List.filter_cons]
      by_cases hv : (lookupKey m nb).getD 0 = 1
      · rw [if_pos (by omega : (lookupKey m nb).getD 0 - 1 = 0),
          if_pos (by simpa using hv)]
        simp
      · rw [if_neg (by omega : ¬ (lookupKey m nb).getD 0 - 1 = 0),
          if_neg (by simpa using hv)]
    · intro x
      rw [ihc x, hm1, containsKey_setKey]
      simp only [List.mem_cons]
      tauto
    · intro hmnd
      apply ihd
      rw [hm1]
      exact nodup_keysM_setKey m nb _ hmnd
    · have hlen : (kahnVisit m p nb).2.length =
          p.length + (if (lookupKey m nb).getD 0 - 1 = 0 then 1 else 0) := by
        rw [hp1]
        by_cases hv : (lookupKey m nb).getD 0 - 1 = 0
        · simp [hv]
        · simp [hv]
      have hdec : countPos (kahnVisit m p nb).1 +
          (if (lookupKey m nb).getD 0 - 1 = 0 then 1 else 0) ≤ countPos m :=
        countPos_setKey_dec m nb
      have ihe2 : countPos (List.foldl (fun acc nb => kahnVisit acc.1 acc.2 nb)
            (kahnVisit m p nb) rest).1 +
          (List.foldl (fun acc nb => kahnVisit acc.1 acc.2 nb)
            (kahnVisit m p nb) rest).2.length ≤
          countPos (kahnVisit m p nb).1 + (kahnVisit m p nb).2.length := ihe
      omega

/-- Specialization to `kahnProcess` on the deduplicated edge set of a node. -/
theorem kahnProcess_spec (g : DirectedGraph T) (node : T) (inDeg : List (T × Int))
    (hnd : (depsOf g node).Nodup) :
    (∀ x, (lookupKey (kahnProcess g node inDeg).1 x).getD 0 =
        (lookupKey inDeg x).getD 0 - (countOcc (depsOf g node) x : Int)) ∧
    (kahnProcess g node inDeg).2 =
      (depsOf g node).filter (fun x => (lookupKey inDeg x).getD 0 = 1) ∧
    (∀ x, containsKey (kahnProcess g node inDeg).1 x = true ↔
      containsKey inDeg x = true ∨ x ∈ depsOf g node) ∧
    ((keysM inDeg).Nodup → (keysM (kahnProcess g node inDeg).1).Nodup) ∧
    countPos (kahnProcess g node inDeg).1 + (kahnProcess g node inDeg).2.length ≤
      countPos inDeg := by
  obtain ⟨ha, hb, hc, hd, he⟩ := kahnFold_spec (depsOf g node) hnd inDeg []
  exact ⟨ha, by simpa using hb, hc, hd, by simpa using he⟩

/-! ### The Kahn loop invariant -/

/-- The residual in-degree of `x` once the nodes of `order` have been
emitted (what the mutable in-degree map holds). -/
def residual [DecidableEq T] (g : DirectedGraph T) (order : List T) (x : T) : Int :=
  inDegOf g x - emitDeg g order x

theorem residual_nil (g : DirectedGraph T) (x : T) :
    residual g [] x = inDegOf g x := by
  simp [residual, emitDeg_nil]

theorem residual_append (g : DirectedGraph T) (order : List T) (node x : T) :
    residual g (order ++ [node]) x =
      residual g order x - (countOcc (depsOf g node) x : Int) := by
  unfold residual
  rw [emitDeg_append_single]
  ring

theorem residual_eq_remDeg (g : DirectedGraph T) (hnd : (keysM g).Nodup)
    (order : List T) (hond : order.Nodup) (hok : ∀ a ∈ order, a ∈ keysM g) (x : T) :
    residual g order x = remDeg g order x := by
  unfold residual
  rw [inDegOf_split g hnd order hond hok x]
  ring

theorem residual_nonneg (g : DirectedGraph T) (hnd : (keysM g).Nodup)
    (order : List T) (hond : order.Nodup) (hok : ∀ a ∈ order, a ∈ keysM g) (x : T) :
    0 ≤ residual g order x := by
  rw [residual_eq_remDeg g hnd order hond hok x]
  exact remDeg_nonneg g order x

theorem residual_pos_of_edge (g : DirectedGraph T) (hnd : (keysM g).Nodup)
    (order : List T) (hond : order.Nodup) (hok : ∀ a ∈ order, a ∈ keysM g)
    (a x : T) (hao : a ∉ order) (hedge : x ∈ depsOf g a) :
    0 < residual g order x := by
  rw [residual_eq_remDeg g hnd order hond hok x]
  exact remDeg_pos_of_edge g order a x hao hedge

theorem sum_pos_exists (l : List Int) (h : ∀ v ∈ l, 0 ≤ v) (hpos : 0 < l.sum) :
    ∃ v ∈ l, 0 < v := by
  induction l with
  | nil => simp at hpos
  | cons a rest ih =>
    by_cases ha : 0 < a
    · exact ⟨a, List.mem_cons_self a rest, ha⟩
    · have ha0 : a = 0 := by
        have := h a (List.mem_cons_self a rest)
        omega
      simp only [List.sum_cons, ha0, zero_add] at hpos
      obtain ⟨v, hv, hvpos⟩ :=
        ih (fun v hv => h v (List.mem_cons_of_mem a hv)) hpos
      exact ⟨v, List.mem_cons_of_mem a hv, hvpos⟩

/-- A node with positive residual in-degree has an unemitted in-neighbour. -/
theorem remDeg_pos_pred (g : DirectedGraph T) (hnd : (keysM g).Nodup)
    (order : List T) (x : T) (hpos : 0 < remDeg g order x) :
    ∃ a, EdgeRel g a x ∧ a ∈ keysM g ∧ a ∉ order := by
  unfold remDeg at hpos
  have hnn : ∀ v ∈ (g.filter (fun e => e.1 ∉ order)).map
      (fun e => (countOcc e.2 x : Int)), 0 ≤ v := by
    intro v hv
    rcases List.mem_map.1 hv with ⟨e, _, hev⟩
    rw [← hev]
    exact Int.natCast_nonneg _
  obtain ⟨v, hv, hvpos⟩ := sum_pos_exists _ hnn hpos
  rcases List.mem_map.1 hv with ⟨e, he, hev⟩
  have hef := List.mem_filter.1 he
  have hcnt : 0 < countOcc e.2 x := by
    rw [← hev] at hvpos
    exact_mod_cast hvpos
  have hmem : (e.1, e.2) ∈ g := by simpa using hef.1
  have hl := lookupKey_of_mem_nodup g e.1 e.2 hnd hmem
  refine ⟨e.1, ?_, ?_, ?_⟩
  · unfold EdgeRel depsOf
    rw [hl]
    simpa using (countOcc_pos_iff e.2 x).1 hcnt
  · exact List.mem_map_of_mem Prod.fst hef.1
  · simpa using hef.2

theorem getLast?_none (l : List T) (h : l.getLast? = none) : l = [] := by
  cases l with
  | nil => rfl
  | cons a rest =>
    exfalso
    have hs : (a :: rest).getLast?.isSome = true :=
      List.getLast?_isSome.2 (List.cons_ne_nil a rest)
    rw [h] at hs
    simp at hs

/-- The invariant carried through the Kahn loop. -/
structure KState [DecidableEq T] (g : DirectedGraph T) (sources : List T)
    (inDeg : List (T × Int)) (order : List T) : Prop where
  srcNd : sources.Nodup
  ordNd : order.Nodup
  ordKeys : ∀ x ∈ order, x ∈ keysM g
  degKeys : ∀ x, containsKey inDeg x = true ↔ x ∈ keysM g
  degNd : (keysM inDeg).Nodup
  degVal : ∀ x, (lookupKey inDeg x).getD 0 = residual g order x
  srcChar : ∀ x, x ∈ sources ↔ x ∈ keysM g ∧ x ∉ order ∧ residual g order x = 0
  ordZero : ∀ x ∈ order, residual g order x = 0
  ordBefore : ∀ b ∈ order, ∀ a, EdgeRel g a b →
    a ∈ order ∧ idxOf order a < idxOf order b

theorem kahnLoop_post (g : DirectedGraph T) (hwf : WF g) :
    ∀ (fuel : Nat) (sources : List T) (inDeg : List (T × Int)) (order : List T),
      sources.length + countPos inDeg < fuel →
      KState g sources inDeg order →
      (kahnLoop g fuel sources inDeg order).Nodup ∧
      (∀ x ∈ kahnLoop g fuel sources inDeg order, x ∈ keysM g) ∧
      (∀ b ∈ kahnLoop g fuel sources inDeg order, ∀ a, EdgeRel g a b →
        a ∈ kahnLoop g fuel sources inDeg order ∧
        idxOf (kahnLoop g fuel sources inDeg order) a <
          idxOf (kahnLoop g fuel sources inDeg order) b) ∧
      (∀ x ∈ keysM g, x ∉ kahnLoop g fuel sources inDeg order →
        residual g (kahnLoop g fuel sources inDeg order) x ≠ 0) := by
  intro fuel
  induction fuel with
  | zero =>
    intro sources inDeg order hfuel
    omega
  | succ fuel ih =>
    intro sources inDeg order hfuel st
    cases hlast : sources.getLast? with
    | none =>
      have hsrc : sources = [] := getLast?_none sources hlast
      have hloop : kahnLoop g (fuel + 1) sources inDeg order = order := by
        simp only [kahnLoop, hlast]
      rw [hloop]
      refine ⟨st.ordNd, st.ordKeys, st.ordBefore, ?_⟩
      intro x hxk hxo hres
      have : x ∈ sources := (st.srcChar x).2 ⟨hxk, hxo, hres⟩
      rw [hsrc] at this
      simp at this
    | some node =>
      have hdecomp : sources = sources.dropLast ++ [node] :=
        getLast?_decomp sources node hlast
      have hnode_src : node ∈ sources := by
        rw [hdecomp]
        exact List.mem_append.2 (Or.inr (List.mem_cons_self node []))
      obtain ⟨hkey, hnord, hres0⟩ := (st.srcChar node).1 hnode_src
      have hrestnd : sources.dropLast.Nodup ∧ node ∉ sources.dropLast := by
        have := st.srcNd
        rw [hdecomp] at this
        rw [List.nodup_append] at this
        refine ⟨this.1, ?_⟩
        intro hc
        exact this.2.2 hc (List.mem_cons_self node [])
      obtain ⟨pa, pb, pc, pd, pe⟩ :=
        kahnProcess_spec g node inDeg (hwf.nodupDeps node)
      have hdepkeys : ∀ x ∈ depsOf g node, x ∈ keysM g := by
        intro x hx
        exact (containsKey_iff_mem_keysM g x).1 (hwf.closure node x hx)
      have hF1 : node ∉ depsOf g node := by
        intro hc
        have := residual_pos_of_edge g hwf.nodupKeys order st.ordNd st.ordKeys
          node node hnord hc
        omega
      have hF2 : countOcc (depsOf g node) node = 0 :=
        countOcc_eq_zero _ node hF1
      have hF3 : ∀ x, residual g (order ++ [node]) x =
          residual g order x - (countOcc (depsOf g node) x : Int) :=
        fun x => residual_append g order node x
      have hF4 : ∀ x, (lookupKey (kahnProcess g node inDeg).1 x).getD 0 =
          residual g (order ++ [node]) x := by
        intro x
        rw [pa x, st.degVal x, hF3 x]
      have hF5 : (kahnProcess g node inDeg).2 =
          (depsOf g node).filter (fun x => residual g order x = 1) := by
        rw [pb]
        apply List.filter_congr
        intro y _
        rw [st.degVal y]
      have hF6 : ∀ a x, a ∉ order → x ∈ depsOf g a → 0 < residual g order x :=
        fun a x hao hx =>
          residual_pos_of_edge g hwf.nodupKeys order st.ordNd st.ordKeys a x hao hx
      have hF7 : ∀ x ∈ (kahnProcess g node inDeg).2,
          x ∈ depsOf g node ∧ residual g order x = 1 := by
        intro x hx
        rw [hF5] at hx
        have := List.mem_filter.1 hx
        exact ⟨this.1, by simpa using this.2⟩
      have hF9 : ∀ x ∈ (kahnProcess g node inDeg).2, x ∉ order := by
        intro x hx hc
        have h1 := (hF7 x hx).2
        have h2 := st.ordZero x hc
        omega
      have hF10 : ∀ x ∈ (kahnProcess g node inDeg).2, x ≠ node := by
        intro x hx hc
        have h1 := (hF7 x hx).2
        rw [hc] at h1
        omega
      have hF11 : ∀ x ∈ sources.dropLast, countOcc (depsOf g node) x = 0 := by
        intro x hx
        apply countOcc_eq_zero
        intro hc
        have hxs : x ∈ sources := by
          rw [hdecomp]; exact List.mem_append.2 (Or.inl hx)
        obtain ⟨_, _, hres⟩ := (st.srcChar x).1 hxs
        have := hF6 node x hnord hc
        omega
      have hordnd' : (order ++ [node]).Nodup := by
        refine List.Nodup.append st.ordNd (List.nodup_singleton node) ?_
        intro a ha hax
        simp at hax
        rw [hax] at ha
        exact hnord ha
      have hordkeys' : ∀ x ∈ order ++ [node], x ∈ keysM g := by
        intro x hx
        rcases List.mem_append.1 hx with hx | hx
        · exact st.ordKeys x hx
        · simp at hx
          rw [hx]
          exact hkey
      have hst' : KState g (sources.dropLast ++ (kahnProcess g node inDeg).2)
          (kahnProcess g node inDeg).1 (order ++ [node]) := by
        refine ⟨?_, hordnd', hordkeys', ?_, ?_, hF4, ?_, ?_, ?_⟩
        · refine List.Nodup.append hrestnd.1 ?_ ?_
          · rw [hF5]
            exact List.Nodup.filter _ (hwf.nodupDeps node)
          · intro a ha hap
            obtain ⟨hxs, _, hres⟩ := (st.srcChar a).1
              (by rw [hdecomp]; exact List.mem_append.2 (Or.inl ha))
            have := (hF7 a hap).2
            omega
        · intro x
          rw [pc x]
          constructor
          · rintro (h | h)
            · exact (st.degKeys x).1 h
            · exact hdepkeys x h
          · intro h
            exact Or.inl ((st.degKeys x).2 h)
        · exact pd st.degNd
        · intro x
          constructor
          · intro hx
            rcases List.mem_append.1 hx with hx | hx
            · have hxs : x ∈ sources := by
                rw [hdecomp]; exact List.mem_append.2 (Or.inl hx)
              obtain ⟨hk, ho, hres⟩ := (st.srcChar x).1 hxs
              refine ⟨hk, ?_, ?_⟩
              · intro hc
                rcases List.mem_append.1 hc with hc | hc
                · exact ho hc
                · simp at hc
                  rw [hc] at hx
                  exact hrestnd.2 hx
              · rw [hF3 x, hF11 x hx]
                simpa using hres
            · refine ⟨hdepkeys x (hF7 x hx).1, ?_, ?_⟩
              · intro hc
                rcases List.mem_append.1 hc with hc | hc
                · exact hF9 x hx hc
                · simp at hc
                  exact hF10 x hx hc
              · rw [hF3 x,
                  countOcc_nodup_mem _ x (hwf.nodupDeps node) (hF7 x hx).1,
                  (hF7 x hx).2]
                norm_num
          · rintro ⟨hk, ho', hres'⟩
            have ho : x ∉ order := fun hc => ho' (List.mem_append.2 (Or.inl hc))
            have hxn : x ≠ node := fun hc => ho'
              (List.mem_append.2 (Or.inr (by simp [hc])))
            by_cases hdep : x ∈ depsOf g node
            · have hcnt := countOcc_nodup_mem _ x (hwf.nodupDeps node) hdep
              rw [hF3 x, hcnt] at hres'
              have hres1 : residual g order x = 1 := by omega
              refine List.mem_append.2 (Or.inr ?_)
              rw [hF5]
              exact List.mem_filter.2 ⟨hdep, by simpa using hres1⟩
            · have hcnt := countOcc_eq_zero _ x hdep
              rw [hF3 x, hcnt] at hres'
              have hres1 : residual g order x = 0 := by simpa using hres'
              have hxs : x ∈ sources := (st.srcChar x).2 ⟨hk, ho, hres1⟩
              rw [hdecomp] at hxs
              rcases List.mem_append.1 hxs with hxs | hxs
              · exact List.mem_append.2 (Or.inl hxs)
              · simp at hxs
                exact absurd hxs hxn
        · intro x hx
          rcases List.mem_append.1 hx with hx | hx
          · have h0 := st.ordZero x hx
            have hle : residual g (order ++ [node]) x ≤ 0 := by
              rw [hF3 x, h0]
              have : (0 : Int) ≤ (countOcc (depsOf g node) x : Int) :=
                Int.natCast_nonneg _
              omega
            have hge := residual_nonneg g hwf.nodupKeys (order ++ [node])
              hordnd' hordkeys' x
            omega
          · simp at hx
            rw [hx, hF3 node, hF2, hres0]
            norm_num
        · intro b hb a hab
          rcases List.mem_append.1 hb with hb | hb
          · obtain ⟨hao, hidx⟩ := st.ordBefore b hb a hab
            refine ⟨List.mem_append.2 (Or.inl hao), ?_⟩
            rw [idxOf_append_left order [node] a hao,
              idxOf_append_left order [node] b hb]
            exact hidx
          · simp at hb
            rw [hb] at hab ⊢
            have hao : a ∈ order := by
              by_contra hc
              have := hF6 a node hc hab
              omega
            refine ⟨List.mem_append.2 (Or.inl hao), ?_⟩
            rw [idxOf_append_left order [node] a hao,
              idxOf_append_self order node hnord]
            exact idxOf_lt_length order a hao
      have hfuel' : (sources.dropLast ++ (kahnProcess g node inDeg).2).length +
          countPos (kahnProcess g node inDeg).1 < fuel := by
        have hslen : sources.length = sources.dropLast.length + 1 := by
          conv_lhs => rw [hdecomp]
          simp
        rw [List.length_append]
        omega
      have hloop : kahnLoop g (fuel + 1) sources inDeg order =
          kahnLoop g fuel (sources.dropLast ++ (kahnProcess g node inDeg).2)
            (kahnProcess g node inDeg).1 (order ++ [node]) := by
        simp only [kahnLoop, hlast]
      rw [hloop]
      exact ih _ _ _ hfuel' hst'

/-! ### Claim C1: topological-sort validity -/

theorem mem_sourcesOf (g : DirectedGraph T) (hwf : WF g) (x : T) :
    x ∈ sourcesOf (indegrees g) ↔ x ∈ keysM g ∧ inDegOf g x = 0 := by
  unfold sourcesOf
  constructor
  · intro hx
    rcases List.mem_map.1 hx with ⟨e, he, hfst⟩
    have hef := List.mem_filter.1 he
    have hval : e.2 = inDegOf g e.1 := by
      have hmem : (e.1, e.2) ∈ indegrees g := by simpa using hef.1
      exact mem_indegrees_value g e.1 e.2 hmem
    have h0 : e.2 = 0 := by simpa using hef.2
    have hk : e.1 ∈ keysM g := by
      have hck : containsKey (indegrees g) e.1 = true := by
        rw [containsKey_iff_mem_keysM]
        exact List.mem_map_of_mem Prod.fst hef.1
      exact (containsKey_indegrees_wf g hwf e.1).1 hck
    rw [← hfst]
    exact ⟨hk, by rw [← hval]; exact h0⟩
  · rintro ⟨hk, h0⟩
    have hck : containsKey (indegrees g) x = true :=
      (containsKey_indegrees_wf g hwf x).2 hk
    unfold containsKey at hck
    cases hl : lookupKey (indegrees g) x with
    | none => rw [hl] at hck; simp at hck
    | some v =>
      have hv : v = inDegOf g x := by
        have := lookupD_indegrees g x
        rw [hl] at this
        simpa using this
      have hmem : (x, v) ∈ indegrees g := mem_of_lookupKey _ x v hl
      have hvf : (x, v) ∈ (indegrees g).filter (fun p => p.2 = 0) :=
        List.mem_filter.2 ⟨hmem, by simp [hv, h0]⟩
      exact List.mem_map_of_mem Prod.fst hvf

theorem nodup_sourcesOf (inDeg : List (T × Int)) (h : (keysM inDeg).Nodup) :
    (sourcesOf inDeg).Nodup := by
  unfold sourcesOf
  apply List.Nodup.sublist _ h
  exact List.Sublist.map Prod.fst (List.filter_sublist inDeg)

theorem kahn_init (g : DirectedGraph T) (hwf : WF g) :
    KState g (sourcesOf (indegrees g)) (indegrees g) [] := by
  refine ⟨nodup_sourcesOf _ (nodup_keysM_indegrees g), List.nodup_nil,
    by simp, containsKey_indegrees_wf g hwf, nodup_keysM_indegrees g, ?_, ?_,
    by simp, by simp⟩
  · intro x
    rw [lookupD_indegrees, residual_nil]
  · intro x
    rw [mem_sourcesOf g hwf x, residual_nil]
    simp

theorem cycle_of_no_source (g : DirectedGraph T) (hwf : WF g) (hne : g ≠ [])
    (hs : sourcesOf (indegrees g) = []) :
    ∃ c, Relation.TransGen (EdgeRel g) c c := by
  have hpred : ∀ y ∈ keysM g, ∃ a ∈ keysM g,
      (fun a b => decide (EdgeRel g a b)) a y = true := by
    intro y hy
    have hy0 : inDegOf g y ≠ 0 := by
      intro h0
      have : y ∈ sourcesOf (indegrees g) := (mem_sourcesOf g hwf y).2 ⟨hy, h0⟩
      rw [hs] at this
      simp at this
    have heq := residual_eq_remDeg g hwf.nodupKeys [] List.nodup_nil (by simp) y
    rw [residual_nil] at heq
    have hnn := remDeg_nonneg g [] y
    have hpos : 0 < remDeg g [] y := by omega
    obtain ⟨a, hedge, hak, _⟩ := remDeg_pos_pred g hwf.nodupKeys [] y hpos
    exact ⟨a, hak, by simpa using hedge⟩
  have hkne : keysM g ≠ [] := by
    intro hc
    exact hne (List.map_eq_nil.1 hc)
  obtain ⟨x0, hx0⟩ := List.exists_mem_of_ne_nil (keysM g) hkne
  obtain ⟨c, _, hcyc⟩ := exists_cycle_of_forall_pred (keysM g)
    (fun a b => decide (EdgeRel g a b)) x0 hx0 hpred
  refine ⟨c, Relation.TransGen.mono ?_ hcyc⟩
  intro a b h
  simpa using h

theorem keys_subset_of_no_cycle (g : DirectedGraph T) (hwf : WF g)
    (result : List T) (hnd : result.Nodup) (hkeys : ∀ x ∈ result, x ∈ keysM g)
    (hres : ∀ x ∈ keysM g, x ∉ result → residual g result x ≠ 0)
    (hacyc : ∀ c, ¬ Relation.TransGen (EdgeRel g) c c) :
    ∀ x ∈ keysM g, x ∈ result := by
  by_contra hc
  push_neg at hc
  obtain ⟨x0, hx0k, hx0r⟩ := hc
  have hx0S : x0 ∈ (keysM g).filter (fun x => x ∉ result) :=
    List.mem_filter.2 ⟨hx0k, by simpa using hx0r⟩
  have hpred : ∀ y ∈ (keysM g).filter (fun x => x ∉ result), ∃ a ∈
      (keysM g).filter (fun x => x ∉ result),
      (fun a b => decide (EdgeRel g a b)) a y = true := by
    intro y hy
    have hyf := List.mem_filter.1 hy
    have hyk : y ∈ keysM g := hyf.1
    have hyr : y ∉ result := by simpa using hyf.2
    have hne0 := hres y hyk hyr
    have heq := residual_eq_remDeg g hwf.nodupKeys result hnd hkeys y
    have hnn := remDeg_nonneg g result y
    have hpos : 0 < remDeg g result y := by omega
    obtain ⟨a, hedge, hak, har⟩ := remDeg_pos_pred g hwf.nodupKeys result y hpos
    refine ⟨a, List.mem_filter.2 ⟨hak, by simpa using har⟩, by simpa using hedge⟩
  obtain ⟨c, _, hcyc⟩ := exists_cycle_of_forall_pred
    ((keysM g).filter (fun x => x ∉ result))
    (fun a b => decide (EdgeRel g a b)) x0 hx0S hpred
  refine hacyc c (Relation.TransGen.mono ?_ hcyc)
  intro a b h
  simpa using h

/-- Claim C1: on a non-empty acyclic built graph, `topoSort` succeeds and
returns an ordering containing every node exactly once, in which the
source of every edge appears before its destination. -/
theorem C1_topoSort_valid (g : DirectedGraph T) (hb : Built g) (hne : g ≠ [])
    (hacyc : ∀ c, ¬ Relation.TransGen (EdgeRel g) c c) :
    ∃ l, topoSort g = TopoResult.ok l ∧ l.Nodup ∧
      (∀ x, x ∈ l ↔ x ∈ keys g) ∧
      (∀ a b, EdgeRel g a b → idxOf l a < idxOf l b) := by
  have hwf := wf_of_built g hb
  have hsne : ¬ sourcesOf (indegrees g) = [] := by
    intro hcon
    obtain ⟨c, hcyc⟩ := cycle_of_no_source g hwf hne hcon
    exact hacyc c hcyc
  obtain ⟨hnd, hkeys, hbefore, hres⟩ := kahnLoop_post g hwf
    ((sourcesOf (indegrees g)).length + countPos (indegrees g) + 1)
    (sourcesOf (indegrees g)) (indegrees g) [] (by omega) (kahn_init g hwf)
  have hcomplete := keys_subset_of_no_cycle g hwf _ hnd hkeys hres hacyc
  have hiff : ∀ x, x ∈ kahnLoop g
      ((sourcesOf (indegrees g)).length + countPos (indegrees g) + 1)
      (sourcesOf (indegrees g)) (indegrees g) [] ↔ x ∈ keysM g :=
    fun x => ⟨hkeys x, hcomplete x⟩
  have hlen : (kahnLoop g
      ((sourcesOf (indegrees g)).length + countPos (indegrees g) + 1)
      (sourcesOf (indegrees g)) (indegrees g) []).length = g.length := by
    have h1 : (kahnLoop g
        ((sourcesOf (indegrees g)).length + countPos (indegrees g) + 1)
        (sourcesOf (indegrees g)) (indegrees g) []).toFinset =
        (keysM g).toFinset := by
      ext x
      simp only [List.mem_toFinset]
      exact hiff x
    have h2 := List.toFinset_card_of_nodup hnd
    have h3 := List.toFinset_card_of_nodup hwf.nodupKeys
    have h4 : (keysM g).length = g.length := by simp [keysM]
    rw [h1, h3] at h2
    omega
  refine ⟨_, ?_, hnd, ?_, ?_⟩
  · unfold topoSort
    rw [if_neg (by simpa using hsne)]
    show (if (kahnLoop g
        ((sourcesOf (indegrees g)).length + countPos (indegrees g) + 1)
        (sourcesOf (indegrees g)) (indegrees g) []).length = g.length then
        TopoResult.ok _ else TopoResult.errCycle) = _
    rw [if_pos hlen]
  · intro x
    exact hiff x
  · intro a b hab
    have hbk : b ∈ keysM g :=
      (containsKey_iff_mem_keysM g b).1 (hwf.closure a b hab)
    exact (hbefore b (hcomplete b hbk) a hab).2

/-- The two-node chain `a → b`, used as the concrete witness for C1. -/
def chainGraph : DirectedGraph String := addAll [] "a" ["b"]

theorem chainGraph_edge (a b : String) (h : EdgeRel chainGraph a b) :
    a = "a" ∧ b = "b" := by
  unfold EdgeRel at h
  by_cases ha : a = "a"
  · have hd : depsOf chainGraph a = ["b"] := by rw [ha]; decide
    rw [hd] at h
    simp at h
    exact ⟨ha, h⟩
  · by_cases hb : a = "b"
    · have hd : depsOf chainGraph a = [] := by rw [hb]; decide
      rw [hd] at h
      simp at h
    · have hd : depsOf chainGraph a = [] := by
        have hcg : chainGraph = [("a", ["b"]), ("b", [])] := rfl
        rw [hcg]
        simp [depsOf, lookupKey, ha, hb]
      rw [hd] at h
      simp at h

theorem acyclic_of_rank (g : DirectedGraph T) (rank : T → Nat)
    (h : ∀ a b, EdgeRel g a b → rank a < rank b) :
    ∀ c, ¬ Relation.TransGen (EdgeRel g) c c := by
  intro c hc
  have hmono : ∀ a b, Relation.TransGen (EdgeRel g) a b → rank a < rank b := by
    intro a b hab
    induction hab with
    | single h1 => exact h _ _ h1
    | tail _ h2 ih => exact lt_trans ih (h _ _ h2)
  exact absurd (hmono c c hc) (lt_irrefl _)

/-- Witness for C1 on the acyclic chain `a → b`. -/
theorem C1_topoSort_valid_witness :
    ∃ l, topoSort chainGraph = TopoResult.ok l ∧ l.Nodup ∧
      (∀ x, x ∈ l ↔ x ∈ keys chainGraph) ∧
      (∀ a b, EdgeRel chainGraph a b → idxOf l a < idxOf l b) :=
  C1_topoSort_valid chainGraph (Built.step [] "a" ["b"] Built.empty)
    (by decide)
    (acyclic_of_rank chainGraph (fun x => if x = "a" then 0 else 1)
      (by
        intro a b hab
        obtain ⟨ha, hb⟩ := chainGraph_edge a b hab
        subst ha
        subst hb
        simp))

/-! ### Analysis of `isCyclic` -/

theorem idxOf_append_cons (l l2 : List T) (x : T) (h : x ∉ l) :
    idxOf (l ++ x :: l2) x = l.length := by
  induction l with
  | nil => simp [idxOf]
  | cons a rest ih =>
    have hx : ¬ x = a := fun hh => h (by rw [hh]; exact List.mem_cons_self a rest)
    simp only [List.cons_append, idxOf, if_neg hx, List.length_cons]
    exact congrArg (fun n => n + 1)
      (ih (fun hh => h (List.mem_cons_of_mem a hh)))

/-- Structural facts about a completed (revisit-free) inner walk of
`isCyclic`: the final seen list extends the current one, and every queued
node is dequeued later, exactly once, and is not yet seen. -/
theorem cwalk_completed (g : DirectedGraph T) :
    ∀ (fuel : Nat) (tv seen seenF : List T),
      cyclicWalkAux g fuel tv seen = some (false, seenF) →
      (∃ d, seenF = seen ++ d) ∧
      (∀ y ∈ tv, y ∈ seenF ∧ seen.length ≤ idxOf seenF y ∧ y ∉ seen) := by
  intro fuel
  induction fuel with
  | zero =>
    intro tv seen seenF heq
    cases tv with
    | nil =>
      simp [cyclicWalkAux] at heq
      exact ⟨⟨[], by simp [heq]⟩, by simp⟩
    | cons next rest => simp [cyclicWalkAux] at heq
  | succ fuel ih =>
    intro tv seen seenF heq
    cases tv with
    | nil =>
      simp [cyclicWalkAux] at heq
      exact ⟨⟨[], by simp [heq]⟩, by simp⟩
    | cons next rest =>
      simp only [cyclicWalkAux] at heq
      by_cases hns : next ∈ seen
      · rw [if_pos hns] at heq
        simp at heq
      · rw [if_neg hns] at heq
        have hseen' : setAdd seen next = seen ++ [next] := by
          rw [setAdd, if_neg hns]
        rw [hseen'] at heq
        obtain ⟨⟨d, hd⟩, h2⟩ := ih _ _ _ heq
        rw [List.append_assoc] at hd
        have hnext_mem : next ∈ seenF := by
          rw [hd]
          exact List.mem_append.2 (Or.inr (List.mem_cons_self next _))
        have hnext_idx : idxOf seenF next = seen.length := by
          rw [hd]
          exact idxOf_append_cons seen ([] ++ d) next hns
        refine ⟨⟨next :: d, by simpa using hd⟩, ?_⟩
        intro y hy
        rcases List.mem_cons.1 hy with hy | hy
        · rw [hy]
          exact ⟨hnext_mem, le_of_eq hnext_idx.symm, hns⟩
        · obtain ⟨hm, hidx, hns'⟩ := h2 y (List.mem_append.2 (Or.inl hy))
          refine ⟨hm, ?_, ?_⟩
          · have : (seen ++ [next]).length = seen.length + 1 := by simp
            omega
          · intro hc
            exact hns' (List.mem_append.2 (Or.inl hc))

/-- Order-correctness of a completed inner walk: in the final seen list,
every node is dequeued before all of its dependencies. -/
theorem cwalk_order (g : DirectedGraph T) :
    ∀ (fuel : Nat) (tv seen seenF : List T),
      cyclicWalkAux g fuel tv seen = some (false, seenF) →
      (∀ x ∈ seen, ∀ d ∈ depsOf g x, d ∈ seen ∨ d ∈ tv) →
      (∀ x ∈ seen, ∀ d ∈ depsOf g x, d ∈ seen → idxOf seen x < idxOf seen d) →
      ∀ x ∈ seenF, ∀ d ∈ depsOf g x, d ∈ seenF ∧ idxOf seenF x < idxOf seenF d := by
  intro fuel
  induction fuel with
  | zero =>
    intro tv seen seenF heq hcl horder
    cases tv with
    | nil =>
      simp [cyclicWalkAux] at heq
      rw [← heq]
      intro x hx d hd
      rcases hcl x hx d hd with h | h
      · exact ⟨h, horder x hx d hd h⟩
      · simp at h
    | cons next rest => simp [cyclicWalkAux] at heq
  | succ fuel ih =>
    intro tv seen seenF heq hcl horder
    cases tv with
    | nil =>
      simp [cyclicWalkAux] at heq
      rw [← heq]
      intro x hx d hd
      rcases hcl x hx d hd with h | h
      · exact ⟨h, horder x hx d hd h⟩
      · simp at h
    | cons next rest =>
      simp only [cyclicWalkAux] at heq
      by_cases hns : next ∈ seen
      · rw [if_pos hns] at heq
        simp at heq
      · rw [if_neg hns] at heq
        have hseen' : setAdd seen next = seen ++ [next] := by
          rw [setAdd, if_neg hns]
        rw [hseen'] at heq
        have hml1 := cwalk_completed g fuel _ _ _ heq
        refine ih _ _ _ heq ?_ ?_
        · intro x hx d hd
          rcases List.mem_append.1 hx with hx | hx
          · rcases hcl x hx d hd with h | h
            · exact Or.inl (List.mem_append.2 (Or.inl h))
            · rcases List.mem_cons.1 h with h | h
              · exact Or.inl (List.mem_append.2 (Or.inr (by simp [h])))
              · exact Or.inr (List.mem_append.2 (Or.inl h))
          · simp at hx
            rw [hx] at hd
            exact Or.inr (List.mem_append.2 (Or.inr hd))
        · intro x hx d hd hdm
          rcases List.mem_append.1 hx with hx | hx
          · rcases List.mem_append.1 hdm with hdm | hdm
            · rw [idxOf_append_left seen [next] x hx,
                idxOf_append_left seen [next] d hdm]
              exact horder x hx d hd hdm
            · simp at hdm
              rw [hdm, idxOf_append_left seen [next] x hx,
                idxOf_append_self seen next hns]
              exact idxOf_lt_length seen x hx
          · simp at hx
            rw [hx] at hd
            have hdm' : d ∈ rest ++ depsOf g next := List.mem_append.2 (Or.inr hd)
            exact absurd hdm (hml1.2 d hdm').2.2

/-- A list in which every member's dependencies come later is cycle-free. -/
def GoodSet [DecidableEq T] (g : DirectedGraph T) (S : List T) : Prop :=
  ∀ x ∈ S, ∀ d ∈ depsOf g x, d ∈ S ∧ idxOf S x < idxOf S d

theorem goodSet_reach (g : DirectedGraph T) (S : List T) (hg : GoodSet g S) :
    ∀ a b, Relation.TransGen (EdgeRel g) a b → a ∈ S →
      b ∈ S ∧ idxOf S a < idxOf S b := by
  intro a b h
  induction h with
  | single h1 => intro ha; exact hg a ha _ h1
  | tail _ h2 ih =>
    intro ha
    obtain ⟨hb, hi⟩ := ih ha
    obtain ⟨hc, hj⟩ := hg _ hb _ h2
    exact ⟨hc, lt_trans hi hj⟩

theorem goodSet_no_cycle (g : DirectedGraph T) (S : List T) (hg : GoodSet g S)
    (c : T) (hc : c ∈ S) : ¬ Relation.TransGen (EdgeRel g) c c := by
  intro hcyc
  exact absurd (goodSet_reach g S hg c c hcyc hc).2 (lt_irrefl _)

/-- A cycle through a node yields a cycle through one of its dependencies. -/
theorem cycle_rotate (g : DirectedGraph T) (k : T)
    (h : Relation.TransGen (EdgeRel g) k k) :
    ∃ k2 ∈ depsOf g k, Relation.TransGen (EdgeRel g) k2 k2 := by
  rcases (Relation.TransGen.head'_iff).1 h with ⟨k2, hk2, hrest⟩
  rcases (Relation.reflTransGen_iff_eq_or_transGen).1 hrest with heq | htg
  · refine ⟨k2, hk2, ?_⟩
    rw [← heq]
    exact h
  · exact ⟨k2, hk2, Relation.TransGen.tail htg hk2⟩

/-- If the outer loop of `isCyclic` finishes with `false`, no node of the
processed key list lies on a cycle. -/
theorem isCyclicAux_false (g : DirectedGraph T) (fuel : Nat) :
    ∀ (ks sa : List T),
      isCyclicAux g fuel ks sa = some false →
      (∀ c ∈ sa, ∃ S, GoodSet g S ∧ c ∈ S) →
      ∀ c ∈ ks, ¬ Relation.TransGen (EdgeRel g) c c := by
  intro ks
  induction ks with
  | nil => intro sa _ _ c hc; simp at hc
  | cons k rest ih =>
    intro sa heq hsa c hc
    simp only [isCyclicAux] at heq
    by_cases hk : k ∈ sa
    · rw [if_pos hk] at heq
      rcases List.mem_cons.1 hc with hck | hcr
      · obtain ⟨S, hgS, hkS⟩ := hsa k hk
        rw [hck]
        exact goodSet_no_cycle g S hgS k hkS
      · exact ih sa heq hsa c hcr
    · rw [if_neg hk] at heq
      cases hw : cyclicWalkAux g fuel (depsOf g k) [] with
      | none => rw [hw] at heq; simp at heq
      | some res =>
        obtain ⟨b, seenW⟩ := res
        cases b with
        | true => rw [hw] at heq; simp at heq
        | false =>
          rw [hw] at heq
          have hgood : GoodSet g seenW :=
            cwalk_order g fuel (depsOf g k) [] seenW hw
              (by intro x hx; simp at hx) (by intro x hx; simp at hx)
          have hml1 := cwalk_completed g fuel (depsOf g k) [] seenW hw
          rcases List.mem_cons.1 hc with hck | hcr
          · rw [hck]
            intro hcyc
            obtain ⟨k2, hk2d, hk2cyc⟩ := cycle_rotate g k hcyc
            have hk2S : k2 ∈ seenW := (hml1.2 k2 hk2d).1
            exact goodSet_no_cycle g seenW hgood k2 hk2S hk2cyc
          · refine ih _ heq ?_ c hcr
            intro c' hc'
            rcases (mem_addAllSet sa seenW c').1 hc' with h | h
            · exact hsa c' h
            · exact ⟨seenW, hgood, h⟩

/-- Completing `isCyclic` with `false` certifies acyclicity. -/
theorem isCyclic_false_acyclic (g : DirectedGraph T) (fuel : Nat)
    (h : isCyclic g fuel = some false) :
    ∀ c, ¬ Relation.TransGen (EdgeRel g) c c := by
  intro c hcyc
  have hck : c ∈ keysM g := by
    rcases (Relation.TransGen.head'_iff).1 hcyc with ⟨x, hx, _⟩
    unfold EdgeRel depsOf at hx
    cases hl : lookupKey g c with
    | none => rw [hl] at hx; simp at hx
    | some v =>
      rw [← containsKey_iff_mem_keysM]
      simp [containsKey, hl]
  exact isCyclicAux_false g fuel (keys g) [] h (by simp) c hck hcyc

theorem cwalk_mono (g : DirectedGraph T) :
    ∀ (fuel : Nat) (tv seen : List T) (res : Bool × List T),
      cyclicWalkAux g fuel tv seen = some res →
      ∀ k, cyclicWalkAux g (fuel + k) tv seen = some res := by
  intro fuel
  induction fuel with
  | zero =>
    intro tv seen res heq k
    cases tv with
    | nil =>
      simp [cyclicWalkAux] at heq
      cases heq
      cases k <;> simp [cyclicWalkAux]
    | cons next rest => simp [cyclicWalkAux] at heq
  | succ fuel ih =>
    intro tv seen res heq k
    cases tv with
    | nil =>
      simp [cyclicWalkAux] at heq
      cases heq
      cases hfk : fuel + 1 + k <;> simp [cyclicWalkAux]
    | cons next rest =>
      have hfk : fuel + 1 + k = (fuel + k) + 1 := by omega
      rw [hfk]
      simp only [cyclicWalkAux] at heq ⊢
      by_cases hns : next ∈ seen
      · rw [if_pos hns] at heq ⊢
        exact heq
      · rw [if_neg hns] at heq ⊢
        exact ih _ _ _ heq k

theorem cwalk_term (g : DirectedGraph T) :
    ∀ (n : Nat) (tv seen : List T),
      (∀ y ∈ tv, y ∈ allDests g) →
      ((allDests g).filter (fun u => u ∉ seen)).length ≤ n →
      ∃ fuel res, cyclicWalkAux g fuel tv seen = some res := by
  intro n
  induction n with
  | zero =>
    intro tv seen htv hn
    cases tv with
    | nil => exact ⟨0, (false, seen), by simp [cyclicWalkAux]⟩
    | cons next rest =>
      have hns : next ∈ seen := by
        by_contra hc
        have hmem : next ∈ (allDests g).filter (fun u => u ∉ seen) :=
          List.mem_filter.2 ⟨htv next (List.mem_cons_self _ _), by simpa using hc⟩
        have hpos : 0 < ((allDests g).filter (fun u => u ∉ seen)).length :=
          List.length_pos.2 (fun hnil => by rw [hnil] at hmem; simp at hmem)
        omega
      exact ⟨1, (true, seen), by simp [cyclicWalkAux, hns]⟩
  | succ n ih =>
    intro tv seen htv hn
    cases tv with
    | nil => exact ⟨0, (false, seen), by simp [cyclicWalkAux]⟩
    | cons next rest =>
      by_cases hns : next ∈ seen
      · exact ⟨1, (true, seen), by simp [cyclicWalkAux, hns]⟩
      · have hnm : next ∈ allDests g := htv next (List.mem_cons_self _ _)
        have hlt : ((allDests g).filter (fun u => u ∉ setAdd seen next)).length <
            ((allDests g).filter (fun u => u ∉ seen)).length := by
          apply filter_length_lt _ _ _ ?_ next hnm (by simpa using hns)
            (by simp [mem_setAdd])
          intro x hx
          simp only [decide_eq_true_eq] at hx ⊢
          intro hxs
          exact hx ((mem_setAdd seen next x).2 (Or.inl hxs))
        have htv' : ∀ y ∈ rest ++ depsOf g next, y ∈ allDests g := by
          intro y hy
          rcases List.mem_append.1 hy with hy | hy
          · exact htv y (List.mem_cons_of_mem _ hy)
          · exact depsOf_subset_allDests g next y hy
        obtain ⟨fuel, res, hf⟩ := ih _ (setAdd seen next) htv' (by omega)
        refine ⟨fuel + 1, res, ?_⟩
        simp only [cyclicWalkAux]
        rw [if_neg hns]
        exact hf

theorem isCyclicAux_mono (g : DirectedGraph T) :
    ∀ (ks sa : List T) (fuel : Nat) (res : Bool),
      isCyclicAux g fuel ks sa = some res →
      ∀ k, isCyclicAux g (fuel + k) ks sa = some res := by
  intro ks
  induction ks with
  | nil =>
    intro sa fuel res heq k
    simp [isCyclicAux] at heq ⊢
    exact heq
  | cons node rest ih =>
    intro sa fuel res heq k
    simp only [isCyclicAux] at heq ⊢
    by_cases hns : node ∈ sa
    · rw [if_pos hns] at heq ⊢
      exact ih sa fuel res heq k
    · rw [if_neg hns] at heq ⊢
      cases hw : cyclicWalkAux g fuel (depsOf g node) [] with
      | none => rw [hw] at heq; simp at heq
      | some wres =>
        rw [hw] at heq
        rw [cwalk_mono g fuel _ _ wres hw k]
        obtain ⟨b, seenW⟩ := wres
        cases b with
        | true => exact heq
        | false => exact ih _ fuel res heq k

theorem isCyclicAux_term (g : DirectedGraph T) :
    ∀ (ks sa : List T), ∃ fuel res, isCyclicAux g fuel ks sa = some res := by
  intro ks
  induction ks with
  | nil => intro sa; exact ⟨0, false, by simp [isCyclicAux]⟩
  | cons node rest ih =>
    intro sa
    by_cases hns : node ∈ sa
    · obtain ⟨fuel, res, hf⟩ := ih sa
      refine ⟨fuel, res, ?_⟩
      simp only [isCyclicAux]
      rw [if_pos hns]
      exact hf
    · obtain ⟨f0, wres, hw⟩ := cwalk_term g
        ((allDests g).filter (fun u => u ∉ ([] : List T))).length
        (depsOf g node) []
        (fun y hy => depsOf_subset_allDests g node y hy) (le_refl _)
      obtain ⟨b, seenW⟩ := wres
      cases b with
      | true =>
        refine ⟨f0, true, ?_⟩
        simp only [isCyclicAux]
        rw [if_neg hns, hw]
      | false =>
        obtain ⟨f1, res, hf⟩ := ih (addAllSet sa seenW)
        refine ⟨f0 + f1, res, ?_⟩
        simp only [isCyclicAux]
        rw [if_neg hns, cwalk_mono g f0 _ _ _ hw f1]
        have hf' := isCyclicAux_mono g rest (addAllSet sa seenW) f1 res hf f0
        have hcomm : f1 + f0 = f0 + f1 := by omega
        rw [hcomm] at hf'
        exact hf'

/-! ### Claim C2: `isCyclic` is not an iff — counterexample and amended claim -/

/-- The acyclic diamond-free DAG `a → b, a → c, b → c` on which `isCyclic`
wrongly reports a cycle (node `c` is enqueued twice in one traversal). -/
def dagGraph : DirectedGraph String :=
  addAll (addAll [] "a" ["b", "c"]) "b" ["c"]

theorem dagGraph_edge (a b : String) (h : EdgeRel dagGraph a b) :
    (a = "a" ∧ (b = "b" ∨ b = "c")) ∨ (a = "b" ∧ b = "c") := by
  unfold EdgeRel at h
  by_cases ha : a = "a"
  · have hd : depsOf dagGraph a = ["b", "c"] := by rw [ha]; decide
    rw [hd] at h
    simp at h
    exact Or.inl ⟨ha, h⟩
  · by_cases hb : a = "b"
    · have hd : depsOf dagGraph a = ["c"] := by rw [hb]; decide
      rw [hd] at h
      simp at h
      exact Or.inr ⟨hb, h⟩
    · by_cases hc : a = "c"
      · have hd : depsOf dagGraph a = [] := by rw [hc]; decide
        rw [hd] at h
        simp at h
      · have hd : depsOf dagGraph a = [] := by
          have hdg : dagGraph = [("a", ["b", "c"]), ("b", ["c"]), ("c", [])] := rfl
          rw [hdg]
          simp [depsOf, lookupKey, ha, hb, hc]
        rw [hd] at h
        simp at h

/-- Counterexample for C2 as stated: `dagGraph` is built by `addAll` calls
and acyclic, yet `isCyclic` returns `true` on it, so the claimed
equivalence "true iff the graph contains a directed cycle" is false at this
input. -/
theorem C2_isCyclic_iff_counterexample :
    Built dagGraph ∧ isCyclic dagGraph 20 = some true ∧
      (∀ c, ¬ Relation.TransGen (EdgeRel dagGraph) c c) ∧
      ¬ (isCyclic dagGraph 20 = some true ↔
          ∃ c, Relation.TransGen (EdgeRel dagGraph) c c) := by
  have hacyc : ∀ c, ¬ Relation.TransGen (EdgeRel dagGraph) c c := by
    apply acyclic_of_rank dagGraph
      (fun x => if x = "a" then 0 else if x = "b" then 1 else 2)
    intro a b hab
    rcases dagGraph_edge a b hab with ⟨ha, hb | hb⟩ | ⟨ha, hb⟩ <;>
      rw [ha, hb] <;> simp
  refine ⟨Built.step _ "b" ["c"] (Built.step [] "a" ["b", "c"] Built.empty),
    by decide, hacyc, ?_⟩
  intro hiff
  obtain ⟨c, hc⟩ := hiff.1 (by decide)
  exact hacyc c hc

/-- Claim C2 (amended): for every built graph that does contain a directed
cycle (self-loops included), `isCyclic` returns `true`: some fuel completes
the traversal with `true`, and every completed traversal answers `true`.
The converse direction of the original claim is false: `isCyclic` may
return `true` on acyclic graphs (see the counterexample). -/
theorem C2_isCyclic_true_of_cycle (g : DirectedGraph T) (hb : Built g)
    (hcyc : ∃ c, Relation.TransGen (EdgeRel g) c c) :
    (∃ fuel, isCyclic g fuel = some true) ∧
    (∀ fuel b, isCyclic g fuel = some b → b = true) := by
  have hnotfalse : ∀ fuel, ¬ isCyclic g fuel = some false := by
    intro fuel hf
    obtain ⟨c, hc⟩ := hcyc
    exact isCyclic_false_acyclic g fuel hf c hc
  constructor
  · obtain ⟨fuel, res, hr⟩ := isCyclicAux_term g (keys g) []
    cases res with
    | true => exact ⟨fuel, hr⟩
    | false => exact absurd hr (hnotfalse fuel)
  · intro fuel b hbe
    cases b with
    | true => rfl
    | false => exact absurd hbe (hnotfalse fuel)

/-- The two-node cycle used as the witness for the amended C2. -/
def cycleGraph : DirectedGraph String :=
  addAll (addAll [] "x" ["y"]) "y" ["x"]

/-- Witness for the amended C2 on the cyclic graph `x → y → x`. -/
theorem C2_isCyclic_true_of_cycle_witness :
    (∃ fuel, isCyclic cycleGraph fuel = some true) ∧
    (∀ fuel b, isCyclic cycleGraph fuel = some b → b = true) := by
  apply C2_isCyclic_true_of_cycle cycleGraph
    (Built.step _ "y" ["x"] (Built.step [] "x" ["y"] Built.empty))
  have h1 : EdgeRel cycleGraph "x" "y" := by decide
  have h2 : EdgeRel cycleGraph "y" "x" := by decide
  exact ⟨"x", Relation.TransGen.head h1 (Relation.TransGen.single h2)⟩

end MonoDepGraph
